import Mathlib

set_option linter.unusedVariables false

namespace Dwarflint

/-!
Shallow embedding of dwarflint (src/src/dwarflint.c): the message-category
machinery and diagnostic emission, sorted address records, abbreviation
tables, relocation cursors, and the loc/range and location-expression
checkers.  Definitions follow the C source; line numbers in comments refer
to src/src/dwarflint.c.  A few leaf interfaces (the message-category
enumeration of dwarflint.h, the ReadCtx byte-cursor primitives of
dwarflint-readctx.c, and the Coverage interval set) are not among the
provided sources and are modelled from the spec, as marked on their
doc comments.
-/

/-! ## Message categories and criteria (dwarflint.c lines 108-341) -/

/-- Modelled from the spec: the closed message-category vocabulary
(MESSAGE_CATEGORIES of dwarflint.h, which is not among the provided
sources).  Each category is a one-bit mask; IDs follow the listing order
of the spec, section 3: impact levels 1 to 4, accuracy bloat and
suboptimal, the source-origin tags, and the generic error category.
A category value is a bit-set represented as a Nat. -/
def mc_none : Nat := 0

def mc_impact_1 : Nat := 1 <<< 0
def mc_impact_2 : Nat := 1 <<< 1
def mc_impact_3 : Nat := 1 <<< 2
def mc_impact_4 : Nat := 1 <<< 3
def mc_acc_bloat : Nat := 1 <<< 4
def mc_acc_suboptimal : Nat := 1 <<< 5
def mc_info : Nat := 1 <<< 6
def mc_abbrevs : Nat := 1 <<< 7
def mc_aranges : Nat := 1 <<< 8
def mc_pubtables : Nat := 1 <<< 9
def mc_loc : Nat := 1 <<< 10
def mc_ranges : Nat := 1 <<< 11
def mc_line : Nat := 1 <<< 12
def mc_strings : Nat := 1 <<< 13
def mc_elf : Nat := 1 <<< 14
def mc_reloc : Nat := 1 <<< 15
def mc_header : Nat := 1 <<< 16
def mc_die_rel : Nat := 1 <<< 17
def mc_die_other : Nat := 1 <<< 18
def mc_leb128 : Nat := 1 <<< 19
def mc_pubtypes : Nat := 1 <<< 20
def mc_error : Nat := 1 <<< 21

/-- Highest category ID of the closed vocabulary: the value left in the
local variable max by the MC(CAT, ID) expansions (dwarflint.c lines
144-147 and 224-227). -/
def mc_max_id : Nat := 21

/-- Term of the DNF message filter: struct message_term (lines 108-113).
A term matches category c iff positive is a subset of c and negative is
disjoint from c. -/
structure message_term where
  positive : Nat
  negative : Nat
deriving DecidableEq, Repr

/-- Criterion: struct message_criteria (lines 115-120), a disjunction of
terms, kept as the list of its terms. -/
abbrev message_criteria := List message_term

/-- Matching of one term against a category, the loop body of
message_accept (lines 128-129). -/
def term_matches (t : message_term) (cat : Nat) : Bool :=
  (t.positive &&& cat == t.positive) && (t.negative &&& cat == 0)

/-- Function message_accept (lines 122-133): a criterion accepts a
category iff some term matches it. -/
def message_accept (cri : message_criteria) (cat : Nat) : Bool :=
  cri.any fun t => term_matches t cat

/-- Function message_cri_and (lines 193-208): OR the given term into
every disjunct, dropping disjuncts that become internally contradictory.
The C removes a contradictory disjunct by swapping in the last element of
the array; the surviving multiset of terms is the same as this filterMap
and acceptance is order-independent. -/
def message_cri_and (cri : message_criteria) (term : message_term) :
    message_criteria :=
  cri.filterMap fun t =>
    let t1 : message_term :=
      ⟨t.positive ||| term.positive, t.negative ||| term.negative⟩
    if t1.positive &&& t1.negative != 0 then none else some t1

/-- Function message_cri_or (lines 210-216): append the term. -/
def message_cri_or (cri : message_criteria) (term : message_term) :
    message_criteria :=
  cri ++ [term]

/-- Function message_cri_neg (lines 218-241).  For every bit i of the
term with 0 <= i < max (note: the loop bound excludes the highest ID
itself), a positive bit contributes the single-literal term with that bit
positive, and a negative bit contributes the single-literal term with
that bit negative. -/
def message_cri_neg (term : message_term) : message_criteria :=
  (List.range mc_max_id).filterMap fun i =>
    if term.positive.testBit i then some ⟨1 <<< i, mc_none⟩
    else if term.negative.testBit i then some ⟨mc_none, 1 <<< i⟩
    else none

/-- Function message_cri_mul (lines 243-265): pairwise OR of disjuncts,
dropping contradictions. -/
def message_cri_mul (cri rhs : message_criteria) : message_criteria :=
  cri.flatMap fun t1 =>
    rhs.filterMap fun t2 =>
      let t : message_term :=
        ⟨t1.positive ||| t2.positive, t1.negative ||| t2.negative⟩
      if t.positive &&& t.negative != 0 then none else some t

/-- Function message_cri_and_not (lines 267-275): multiply with the
negation of the term whose positive and negative parts are swapped. -/
def message_cri_and_not (cri : message_criteria) (term : message_term) :
    message_criteria :=
  message_cri_mul cri (message_cri_neg ⟨term.negative, term.positive⟩)

/-- Severity of a printed diagnostic line. -/
inductive Severity
  | error
  | warning
deriving DecidableEq, Repr

/-- Function wr_message (lines 327-341), observed as the sequence of
printed lines: nothing if the warning criteria reject the category,
otherwise one line whose severity is error iff the error criteria also
accept the category.  The indented caused-by continuation lines emitted
by where_fmt_chain belong to the single diagnostic and are not separate
diagnostics. -/
def wr_message (warning_criteria error_criteria : message_criteria)
    (category : Nat) : List Severity :=
  if message_accept warning_criteria category then
    if message_accept error_criteria category then
      [Severity.error]
    else
      [Severity.warning]
  else []

/-- Postcondition of message_cri_neg as the code computes it: one
single-literal term per category bit of the input term strictly below
the highest ID, with the polarity of the input literal kept (not
flipped), and acceptance equal to the failure of the reflected term
(negative, positive) to match. -/
def C5_post (t : message_term) : Prop :=
  (∀ i, i < mc_max_id → t.positive.testBit i = true →
      (⟨1 <<< i, mc_none⟩ : message_term) ∈ message_cri_neg t)
  ∧ (∀ i, i < mc_max_id → t.negative.testBit i = true →
      (⟨mc_none, 1 <<< i⟩ : message_term) ∈ message_cri_neg t)
  ∧ (∀ u ∈ message_cri_neg t, ∃ i, i < mc_max_id
      ∧ ((t.positive.testBit i = true ∧ u = ⟨1 <<< i, mc_none⟩)
        ∨ (t.negative.testBit i = true ∧ u = ⟨mc_none, 1 <<< i⟩)))
  ∧ (∀ c, message_accept (message_cri_neg t) c
      = !term_matches ⟨t.negative, t.positive⟩ c)

/-! ## Diagnostic stream and exit code (dwarflint.c lines 283-341, 510-615) -/

/-- Observable state of the diagnostic machinery: the global error_count
(line 283) and the sequence of printed diagnostic lines. -/
structure DiagState where
  error_count : Nat
  lines : List Severity
deriving DecidableEq, Repr

def initial_diag_state : DiagState := ⟨0, []⟩

/-- Function wr_verror (lines 291-298): print one error line and
increment error_count. -/
def wr_verror (st : DiagState) : DiagState :=
  ⟨st.error_count + 1, st.lines ++ [Severity.error]⟩

/-- Function wr_vwarning (lines 300-307): print one warning line and
increment error_count. -/
def wr_vwarning (st : DiagState) : DiagState :=
  ⟨st.error_count + 1, st.lines ++ [Severity.warning]⟩

/-- Entry points into the diagnostic machinery: wr_error (lines 309-316),
wr_warning (lines 318-325) and wr_message (lines 327-341). -/
inductive DiagCall
  | callError
  | callWarning
  | callMessage (category : Nat)

/-- Effect of one diagnostic entry point on the state. -/
def diag_step (wc ec : message_criteria) (st : DiagState) :
    DiagCall → DiagState
  | .callError => wr_verror st
  | .callWarning => wr_vwarning st
  | .callMessage cat =>
      if message_accept wc cat then
        if message_accept ec cat then wr_verror st else wr_vwarning st
      else st

/-- Cumulative effect of a whole run (all diagnostic calls over all input
files, in order). -/
def diag_run (wc ec : message_criteria) (calls : List DiagCall) : DiagState :=
  calls.foldl (diag_step wc ec) initial_diag_state

/-- Exit code of main (line 614): error_count != 0. -/
def main_exit_code (st : DiagState) : Nat :=
  if st.error_count != 0 then 1 else 0

/-! ## Criteria configuration in main (dwarflint.c lines 523-560) -/

/-- Warning criteria as configured by main from the command-line flags
(lines 523-560): start from the universally accepting term, then restrict
according to the -i, --gnu, --strict and --tolerant switches. -/
def configured_warning_criteria (tolerate_nodebug be_gnu be_strict
    be_tolerant : Bool) : message_criteria :=
  let cri := message_cri_or [] ⟨mc_none, mc_none⟩
  let cri := if tolerate_nodebug then
      message_cri_and cri ⟨mc_none, mc_elf⟩
    else cri
  let cri := if be_gnu then
      message_cri_and cri ⟨mc_none, mc_acc_bloat⟩
    else cri
  let cri := if !be_strict then
      message_cri_and
        (message_cri_and_not
          (message_cri_and cri ⟨mc_none, mc_strings⟩)
          ⟨mc_line ||| mc_header ||| mc_acc_bloat, mc_none⟩)
        ⟨mc_none, mc_pubtypes⟩
    else cri
  let cri := if be_tolerant then
      message_cri_and
        (message_cri_and cri ⟨mc_none, mc_loc⟩)
        ⟨mc_none, mc_ranges⟩
    else cri
  cri

/-- Error criteria configured by main (lines 527-530); no flag ever
modifies them. -/
def configured_error_criteria : message_criteria :=
  message_cri_or (message_cri_or [] ⟨mc_impact_4, mc_none⟩)
    ⟨mc_error, mc_none⟩

/-- Warning criteria with no flags given. -/
def default_warning_criteria : message_criteria :=
  configured_warning_criteria false false false false

def default_error_criteria : message_criteria :=
  configured_error_criteria

/-! ## Relocation cursor (dwarflint.c lines 2261-2327) -/

/-- Entry of the per-section sorted relocation list, struct relocation
(fields relevant to cursor movement): offset and the invalid flag. -/
structure relocation where
  offset : Nat
  invalid : Bool
deriving DecidableEq, Repr

/-- Enum skip_type (lines 2261-2266). -/
inductive skip_type
  | skip_unref
  | skip_mismatched
  | skip_ok
deriving DecidableEq, Repr

/-- Diagnostics emitted while the relocation cursor skips entries
(lines 2288-2299). -/
inductive RelocDiag
  | unref (off : Nat)
  | mismatched (off : Nat)
deriving DecidableEq, Repr

/-- Diagnostic list for one skipped valid entry (lines 2290-2299):
nothing for skip_ok, otherwise the message selected by the skip type. -/
def skip_diags (st : skip_type) (off : Nat) : List RelocDiag :=
  match st with
  | .skip_ok => []
  | .skip_unref => [RelocDiag.unref off]
  | .skip_mismatched => [RelocDiag.mismatched off]

/-- Loop of relocation_next (lines 2275-2304), walking the entries from
the cursor position, given as the suffix rel.drop index together with the
numeric index.  Yields the final cursor index, the emitted diagnostics
and the returned relocation, if any. -/
def relocation_next_list :
    List relocation → Nat → Nat → skip_type →
      Nat × List RelocDiag × Option relocation
  | [], index, _, _ => (index, [], none)
  | r :: rest, index, offset, st =>
      if r.offset > offset then (index, [], none)
      else if r.invalid then relocation_next_list rest (index + 1) offset st
      else if r.offset < offset then
        let r2 := relocation_next_list rest (index + 1) offset st
        (r2.1, skip_diags st r.offset ++ r2.2.1, r2.2.2)
      else (index + 1, [], some r)

/-- Per-section relocation data, struct relocation_data restricted to the
sorted entry vector and the cursor index; an empty rel list models a NULL
entry array. -/
structure relocation_data where
  rel : List relocation
  index : Nat
deriving DecidableEq, Repr

/-- Function relocation_next (lines 2268-2307). -/
def relocation_next (rd : relocation_data) (offset : Nat) (st : skip_type) :
    relocation_data × List RelocDiag × Option relocation :=
  if rd.rel.isEmpty then (rd, [], none)
  else
    let r2 := relocation_next_list (rd.rel.drop rd.index) rd.index offset st
    (⟨rd.rel, r2.1⟩, r2.2.1, r2.2.2)

/-- Largest uint64_t value, the offset passed by relocation_skip_rest. -/
def UINT64_MAX : Nat := 2 ^ 64 - 1

/-- Value of the C expression offset - 1 on uint64_t operands. -/
def u64_sub_one (offset : Nat) : Nat :=
  if offset = 0 then UINT64_MAX else offset - 1

/-- Function relocation_skip (lines 2309-2318): advance to offset - 1 so
that a matching relocation at offset is still yielded later. -/
def relocation_skip (rd : relocation_data) (offset : Nat) (st : skip_type) :
    relocation_data × List RelocDiag :=
  if rd.rel.isEmpty then (rd, [])
  else
    let r2 := relocation_next rd (u64_sub_one offset) st
    (r2.1, r2.2.1)

/-- Function relocation_skip_rest (lines 2320-2327): drain the remaining
entries with skip_mismatched, up to offset (uint64_t)-1. -/
def relocation_skip_rest (rd : relocation_data) :
    relocation_data × List RelocDiag :=
  if rd.rel.isEmpty then (rd, [])
  else
    let r2 := relocation_next rd UINT64_MAX .skip_mismatched
    (r2.1, r2.2.1)

/-- Default element used when stating facts about list positions of the
relocation vector. -/
def dummy_rel : relocation := ⟨0, true⟩

/-- Diagnostics contributed by one scanned entry of relocation_next:
nothing for an invalid entry or one at or past the sought offset,
otherwise the skip-type message. -/
def rel_skip_fn (st : skip_type) (offset : Nat) (e : relocation) :
    List RelocDiag :=
  if e.invalid = false ∧ e.offset < offset then skip_diags st e.offset else []

/-- Postcondition of relocation_next on a cursor: the entry vector is
untouched, the index only grows, every entry scanned past has offset at
most the sought offset, every remaining entry has offset at least it,
a none result leaves the cursor at the first remaining entry with larger
offset, a returned entry is valid, sits at exactly the sought offset and
the cursor points one past it, and the diagnostics are exactly the
skip-type messages of the scanned valid entries with smaller offset. -/
def relocation_next_post (rd : relocation_data) (offset : Nat)
    (st : skip_type) : Prop :=
  (relocation_next rd offset st).1.rel = rd.rel
  ∧ rd.index ≤ (relocation_next rd offset st).1.index
  ∧ (∀ j, rd.index ≤ j → j < (relocation_next rd offset st).1.index →
      (rd.rel.getD j dummy_rel).offset ≤ offset)
  ∧ (∀ j, (relocation_next rd offset st).1.index ≤ j → j < rd.rel.length →
      offset ≤ (rd.rel.getD j dummy_rel).offset)
  ∧ ((relocation_next rd offset st).2.2 = none → rd.index ≤ rd.rel.length →
      rd.rel.length ≤ (relocation_next rd offset st).1.index
        ∨ offset < (rd.rel.getD (relocation_next rd offset st).1.index
            dummy_rel).offset)
  ∧ (∀ rel, (relocation_next rd offset st).2.2 = some rel →
      rel.offset = offset ∧ rel.invalid = false
        ∧ rd.index < (relocation_next rd offset st).1.index
        ∧ rd.rel.getD ((relocation_next rd offset st).1.index - 1)
            dummy_rel = rel)
  ∧ (relocation_next rd offset st).2.1
      = ((rd.rel.drop rd.index).take
          ((relocation_next rd offset st).1.index - rd.index)).flatMap
        (rel_skip_fn st offset)

/-! ## CU address sizes (dwarflint.c lines 3229-3328 and 3462-3482) -/

/-- Diagnostics of the address-size checks: the per-CU invalid-size
error of check_cu_structural (lines 3282-3288) and the cross-CU
mismatch message of check_info_structural (lines 3472-3481). -/
inductive CuDiag
  | invalidAddressSize (size : Nat)
  | addressSizeMismatch (offset first_offset : Nat)
deriving DecidableEq, Repr

/-- Address-size fragment of check_cu_structural (lines 3276-3289):
a size other than 4 or 8 draws an error and makes the function return
false, aborting the CU (check_info_structural then stops the section
walk and frees the chain); otherwise the size is stored on the CU. -/
def check_cu_address_size (address_size : Nat) : List CuDiag × Option Nat :=
  if address_size ≠ 4 ∧ address_size ≠ 8 then
    ([CuDiag.invalidAddressSize address_size], none)
  else ([], some address_size)

/-- Record of one CU as the cross-CU scan reads it: its section offset
(where.addr1) and its validated address size. -/
structure cu_rec where
  offset : Nat
  address_size : Nat
deriving DecidableEq, Repr

/-- Loop of the cross-CU address-size scan (lines 3462-3482): remember
the first CU, and on the first CU whose size differs emit one mc_info
message and stop. -/
def info_address_size_scan_loop : List cu_rec → Nat → Nat → List CuDiag
  | [], _, _ => []
  | it :: rest, address_size, offset =>
      if address_size = 0 then
        info_address_size_scan_loop rest it.address_size it.offset
      else if address_size ≠ it.address_size then
        [CuDiag.addressSizeMismatch it.offset offset]
      else info_address_size_scan_loop rest address_size offset

/-- Cross-CU address-size scan over the whole chain, starting with no
size seen (address_size = 0, line 3462). -/
def info_address_size_scan (chain : List cu_rec) : List CuDiag :=
  info_address_size_scan_loop chain 0 0

/-- Postcondition of the address-size checking: the scan emits at most
one diagnostic, is silent exactly when all CU address sizes agree, the
mismatch message (category mc_info, line 3476) prints at severity
warning under every flag configuration, and only a size other than 4 or
8 aborts the CU. -/
def C7_post (chain : List cu_rec) : Prop :=
  (info_address_size_scan chain).length ≤ 1
  ∧ (info_address_size_scan chain = [] ↔
      ∀ cu1 ∈ chain, ∀ cu2 ∈ chain,
        cu1.address_size = cu2.address_size)
  ∧ (∀ tnd gnu strict tol : Bool,
      wr_message (configured_warning_criteria tnd gnu strict tol)
        configured_error_criteria mc_info = [Severity.warning])
  ∧ (∀ n, (check_cu_address_size n).2 = some n ↔ (n = 4 ∨ n = 8))
  ∧ (∀ n, (check_cu_address_size n).2 = none ↔ ¬ (n = 4 ∨ n = 8))

/-! ## Address records (dwarflint.c lines 725-1838) -/

/-- Struct addr_record (lines 725-730): a sorted vector of 64-bit
addresses, kept as the list of stored addresses. -/
structure addr_record where
  addrs : List Nat
deriving DecidableEq, Repr

/-- Loop of addr_record_find_addr (lines 1784-1804): binary search for
addr over the index window between a and b.  The fuel argument bounds
the iteration count; the wrapper passes b - a, which the halving loop
never exhausts, and on (unreachable) exhaustion the loop-exit value a
is returned. -/
def addr_record_find_loop (addrs : List Nat) (addr : Nat) :
    Nat → Nat → Nat → Nat
  | a, _, 0 => a
  | a, b, fuel + 1 =>
      if a < b then
        let i := (a + b) / 2
        let v := addrs.getD i 0
        if v > addr then addr_record_find_loop addrs addr a i fuel
        else if v < addr then addr_record_find_loop addrs addr (i + 1) b fuel
        else i
      else a

/-- Function addr_record_find_addr (lines 1784-1804): binary search over
the whole vector, returning the index of addr when present, otherwise
the position where it would be inserted. -/
def addr_record_find_addr (ar : addr_record) (addr : Nat) : Nat :=
  addr_record_find_loop ar.addrs addr 0 ar.addrs.length ar.addrs.length

/-- Function addr_record_has_addr (lines 1806-1816). -/
def addr_record_has_addr (ar : addr_record) (addr : Nat) : Bool :=
  if ar.addrs.length = 0 ∨ addr < ar.addrs.getD 0 0
      ∨ addr > ar.addrs.getD (ar.addrs.length - 1) 0 then
    false
  else
    let a := addr_record_find_addr ar addr
    decide (a < ar.addrs.length ∧ ar.addrs.getD a 0 = addr)

/-- Function addr_record_add (lines 1818-1831): insert addr at the
position found by the binary search unless it is already stored there
(the memmove shifts the tail up by one slot). -/
def addr_record_add (ar : addr_record) (addr : Nat) : addr_record :=
  let a := addr_record_find_addr ar addr
  if a ≥ ar.addrs.length ∨ ar.addrs.getD a 0 ≠ addr then
    ⟨ar.addrs.take a ++ addr :: ar.addrs.drop a⟩
  else ar

/-- Accumulation of cu.die_addrs by read_die_chain (line 2732): for every
DIE walked at in-CU offset d, the absolute section offset
cu.offset + d is added to the record. -/
def die_addrs_record (cu_offset : Nat) (die_offs : List Nat) : addr_record :=
  die_offs.foldl (fun ar d => addr_record_add ar (cu_offset + d)) ⟨[]⟩

/-! ## Abbreviation tables (dwarflint.c lines 679-1782) -/

/-- Struct abbrev restricted to the fields the duplicate check and the
code lookup touch: the code and the where of its definition site
(modelled as the offset of the abbreviation inside the section). -/
structure abbrev_rec where
  code : Nat
  site : Nat
deriving DecidableEq, Repr

/-- Default element used when stating facts about abbreviation list
positions. -/
def dummy_abbrev : abbrev_rec := ⟨0, 0⟩

/-- Loop of abbrev_table_find_abbrev (lines 1761-1782): binary search
for an abbreviation by code.  Fuel as in addr_record_find_loop; on the
(unreachable) exhaustion the loop-exit value NULL is returned. -/
def abbrev_table_find_loop (abbr : List abbrev_rec) (code : Nat) :
    Nat → Nat → Nat → Option abbrev_rec
  | _, _, 0 => none
  | a, b, fuel + 1 =>
      if a < b then
        let i := (a + b) / 2
        let ab := abbr.getD i dummy_abbrev
        if ab.code > code then abbrev_table_find_loop abbr code a i fuel
        else if ab.code < code then
          abbrev_table_find_loop abbr code (i + 1) b fuel
        else some ab
      else none

/-- Function abbrev_table_find_abbrev (lines 1761-1782). -/
def abbrev_table_find_abbrev (abbr : List abbrev_rec) (code : Nat) :
    Option abbrev_rec :=
  abbrev_table_find_loop abbr code 0 abbr.length abbr.length

/-- Diagnostic of the duplicate-code check (lines 1532-1539): the new
code, its site and the site of the first definition that the error
message cites. -/
inductive AbbrevDiag
  | duplicate (code site first_site : Nat)
deriving DecidableEq, Repr

/-- Duplicate handling for one incoming abbreviation (lines 1532-1554):
look the code up in the abbreviations stored so far; on a hit emit one
error citing the original definition site and do not store the
newcomer, otherwise append it. -/
def abbrev_load_step (st : List abbrev_rec × List AbbrevDiag)
    (inc : abbrev_rec) : List abbrev_rec × List AbbrevDiag :=
  match abbrev_table_find_abbrev st.1 inc.code with
  | some original => (st.1, st.2 ++ [.duplicate inc.code inc.site original.site])
  | none => (st.1 ++ [inc], st.2)

/-- Comparator cmp_abbrs (lines 1727-1732): the uint64_t difference
aa->code - bb->code truncated to int. -/
def cmp_abbrs (aa bb : abbrev_rec) : Int :=
  let d : Nat := ((aa.code % 2 ^ 64 + 2 ^ 64) - bb.code % 2 ^ 64) % 2 ^ 64
  let low : Nat := d % 2 ^ 32
  if low < 2 ^ 31 then (low : Int) else (low : Int) - 2 ^ 32

/-- Insertion into a run already ordered by cmp_abbrs. -/
def insert_by_code (x : abbrev_rec) : List abbrev_rec → List abbrev_rec
  | [] => [x]
  | y :: rest =>
      if cmp_abbrs x y ≤ 0 then x :: y :: rest
      else y :: insert_by_code x rest

/-- Closing sort of abbrev_table_load (lines 1725-1737): qsort by
cmp_abbrs, modelled as an insertion sort with the same comparator
(qsort leaves the element order unspecified beyond the comparator). -/
def abbrev_table_sort (tbl : List abbrev_rec) : List abbrev_rec :=
  tbl.foldr insert_by_code []

/-- Per-table skeleton of abbrev_table_load (lines 1468-1744) for the
code bookkeeping: fold the duplicate handling over the decoded
abbreviations of one table (in file order; byte-level decoding of code,
tag, children and attributes, whose failures abort the whole load, is
outside this claim), then sort by code. -/
def abbrev_table_load (entries : List abbrev_rec) :
    List abbrev_rec × List AbbrevDiag :=
  let st := entries.foldl abbrev_load_step ([], [])
  (abbrev_table_sort st.1, st.2)

/-- Reference semantics for the duplicate check, following the words of
the spec (the second definition of a repeated code emits an error citing
the first definition and is dropped): linear lookup of the code among
the stored abbreviations. -/
def abbrev_load_linear_step (st : List abbrev_rec × List AbbrevDiag)
    (inc : abbrev_rec) : List abbrev_rec × List AbbrevDiag :=
  match st.1.find? (fun x => x.code == inc.code) with
  | some original =>
      (st.1, st.2 ++ [.duplicate inc.code inc.site original.site])
  | none => (st.1 ++ [inc], st.2)

def abbrev_load_linear (entries : List abbrev_rec) :
    List abbrev_rec × List AbbrevDiag :=
  entries.foldl abbrev_load_linear_step ([], [])

/-! ## ReadCtx byte cursor -/

/-- Modelled from the spec: the ReadCtx bounded byte cursor of
dwarflint-readctx.c, which is not among the provided sources (spec
section 4.1).  The data list holds the bytes of the slice between begin
and end, and pos is ptr - begin.  Multi-byte reads are modelled
little-endian; the verified properties do not depend on the byte
order. -/
structure read_ctx where
  data : List Nat
  pos : Nat
deriving DecidableEq, Repr

def read_ctx_eof (ctx : read_ctx) : Bool :=
  ctx.pos ≥ ctx.data.length

def read_ctx_get_offset (ctx : read_ctx) : Nat :=
  ctx.pos

def read_ctx_need_data (ctx : read_ctx) (n : Nat) : Bool :=
  ctx.pos + n ≤ ctx.data.length

/-- Consume n raw bytes. -/
def read_ctx_read_bytes (ctx : read_ctx) (n : Nat) :
    Option (List Nat × read_ctx) :=
  if ctx.pos + n ≤ ctx.data.length then
    some ((ctx.data.drop ctx.pos).take n, ⟨ctx.data, ctx.pos + n⟩)
  else none

/-- Little-endian value of a byte list. -/
def le_value (bytes : List Nat) : Nat :=
  bytes.foldr (fun b acc => b + 256 * acc) 0

def read_ctx_read_ubyte (ctx : read_ctx) : Option (Nat × read_ctx) :=
  (read_ctx_read_bytes ctx 1).map fun r => (le_value r.1, r.2)

def read_ctx_read_2ubyte (ctx : read_ctx) : Option (Nat × read_ctx) :=
  (read_ctx_read_bytes ctx 2).map fun r => (le_value r.1, r.2)

def read_ctx_read_4ubyte (ctx : read_ctx) : Option (Nat × read_ctx) :=
  (read_ctx_read_bytes ctx 4).map fun r => (le_value r.1, r.2)

def read_ctx_read_8ubyte (ctx : read_ctx) : Option (Nat × read_ctx) :=
  (read_ctx_read_bytes ctx 8).map fun r => (le_value r.1, r.2)

/-- Offset-sized read: 8 bytes when the width flag says 64-bit, else
4 bytes. -/
def read_ctx_read_offset (ctx : read_ctx) (wide : Bool) :
    Option (Nat × read_ctx) :=
  if wide then read_ctx_read_8ubyte ctx else read_ctx_read_4ubyte ctx

/-- Modelled from the spec: ULEB128 reader of dwarflint-readctx.c (not
among the sources).  Returns the decoded value, the new cursor and the
bloat flag that is true when the encoding used more bytes than the
magnitude needs.  The fuel argument bounds the byte count; the wrapper
passes the remaining byte count plus one, which the loop (one byte per
step) never exhausts. -/
def read_uleb128_go (data : List Nat) : Nat → Nat → Option (Nat × Nat × Bool)
  | _, 0 => none
  | pos, fuel + 1 =>
      if h : pos < data.length then
        let b := data.getD pos 0
        if b &&& 0x80 ≠ 0 then
          match read_uleb128_go data (pos + 1) fuel with
          | none => none
          | some (v, p2, _) =>
              some ((b &&& 0x7f) + (v <<< 7), p2, v = 0)
        else
          some (b, pos + 1, false)
      else none

def read_ctx_read_uleb128 (ctx : read_ctx) : Option (Nat × read_ctx × Bool) :=
  match read_uleb128_go ctx.data ctx.pos (ctx.data.length - ctx.pos + 1) with
  | none => none
  | some (v, p2, bloat) => some (v, ⟨ctx.data, p2⟩, bloat)

/-- Modelled from the spec: SLEB128 reader (not among the sources).
The signed value is returned as its 64-bit two-complement bit pattern,
as the C caller stores it through a uint64_t pointer. -/
def read_sleb128_go (data : List Nat) : Nat → Nat → Option (Int × Nat × Bool)
  | _, 0 => none
  | pos, fuel + 1 =>
      if h : pos < data.length then
        let b := data.getD pos 0
        if b &&& 0x80 ≠ 0 then
          match read_sleb128_go data (pos + 1) fuel with
          | none => none
          | some (v, p2, _) =>
              some (((b &&& 0x7f : Nat) : Int) + v * 128, p2,
                v = 0 ∨ v = -1)
        else
          some (if b &&& 0x40 ≠ 0 then ((b &&& 0x7f : Nat) : Int) - 128
            else ((b &&& 0x7f : Nat) : Int), pos + 1, false)
      else none

def read_ctx_read_sleb128 (ctx : read_ctx) : Option (Nat × read_ctx × Bool) :=
  match read_sleb128_go ctx.data ctx.pos (ctx.data.length - ctx.pos + 1) with
  | none => none
  | some (v, p2, bloat) =>
      some ((v.emod (2 ^ 64)).toNat, ⟨ctx.data, p2⟩, bloat)

/-- DWARF form and opcode constants, values fixed by the DWARF standard
(the header libdw/dwarf.h is not among the provided sources). -/
def DW_FORM_addr : Nat := 0x01
def DW_FORM_data2 : Nat := 0x05
def DW_FORM_data4 : Nat := 0x06
def DW_FORM_data8 : Nat := 0x07
def DW_FORM_data1 : Nat := 0x0b
def DW_FORM_sdata : Nat := 0x0d
def DW_FORM_udata : Nat := 0x0f

def DW_OP_const8u : Nat := 0x0e
def DW_OP_const8s : Nat := 0x0f
def DW_OP_constu : Nat := 0x10
def DW_OP_consts : Nat := 0x11
def DW_OP_plus_uconst : Nat := 0x23
def DW_OP_bra : Nat := 0x28
def DW_OP_skip : Nat := 0x2f
def DW_OP_deref_size : Nat := 0x94

/-- Function read_ctx_read_form (dwarflint.c lines 1354-1398): decode
one operand by form; the Bool is the LEB128 bloat flag (always false
for fixed-width forms). -/
def read_ctx_read_form (ctx : read_ctx) (addr_64 : Bool) (form : Nat) :
    Option (Nat × read_ctx × Bool) :=
  if form = DW_FORM_addr then
    (read_ctx_read_offset ctx addr_64).map fun r => (r.1, r.2, false)
  else if form = DW_FORM_udata then
    read_ctx_read_uleb128 ctx
  else if form = DW_FORM_sdata then
    read_ctx_read_sleb128 ctx
  else if form = DW_FORM_data1 then
    (read_ctx_read_ubyte ctx).map fun r => (r.1, r.2, false)
  else if form = DW_FORM_data2 then
    (read_ctx_read_2ubyte ctx).map fun r => (r.1, r.2, false)
  else if form = DW_FORM_data4 then
    (read_ctx_read_4ubyte ctx).map fun r => (r.1, r.2, false)
  else if form = DW_FORM_data8 then
    (read_ctx_read_8ubyte ctx).map fun r => (r.1, r.2, false)
  else none

/-! ## Location expression checker (dwarflint.c lines 4016-4171) -/

/-- Diagnostics of check_location_expression. -/
inductive LocexprDiag
  | cantReadOpcode (off : Nat)
  | unknownOpcode (off opcode : Nat)
  | lebBloat (off : Nat)
  | cantReadOperand (off opcode which : Nat)
  | relocSkip (d : RelocDiag)
  | relocOne (token : Nat)
  | skipZero (off : Nat)
  | branchOutside (off : Nat)
  | branchBefore (off : Nat)
  | const8On32 (off : Nat)
  | largeConstOn32 (off : Nat)
  | unresolvedOpRef (target : Nat)
  | notEnough
deriving DecidableEq, Repr

/-- Abstract behaviour of relocate_one (lines 2333-2495) on one
relocation: the relocated value written back through the value pointer,
the symbol's section index (for check_range_relocations), and opaque
tokens standing for the diagnostics relocate_one itself may emit.
relocate_one never aborts its caller, so any instantiation is sound for
the control-flow claims. -/
structure relocate_model where
  value : relocation → Nat → Nat
  symbol : relocation → Option Nat
  tokens : relocation → List Nat

/-- Relocation model of a file without relocation effects. -/
def relocate_model_id : relocate_model :=
  ⟨fun _ v => v, fun _ => none, fun _ => []⟩

/-- Value of the C cast (int16_t)(uint16_t)v. -/
def int16_of_u64 (v : Nat) : Int :=
  let s : Nat := v % 2 ^ 16
  if s < 2 ^ 15 then (s : Int) else (s : Int) - 2 ^ 16

/-- State of the walk inside one location expression. -/
structure locexpr_state where
  ctx : read_ctx
  rel : relocation_data
  opaddrs : addr_record
  oprefs : List Nat
  diags : List LocexprDiag

/-- The READ_FORM macro (lines 4083-4105): read one operand by form,
diagnosing an unreadable operand (which aborts the walk: the returned
value is none), emitting the LEB128 bloat message of the checked
readers when due, and applying a pending relocation through the
relocation cursor and relocate_one.  An operand slot of 0 means the
opcode takes no operand there (the C leaves the value variable
untouched; the model returns 0). -/
def locexpr_read_form (rm : relocate_model) (addr_64 : Bool)
    (init_off opcode which op : Nat) (st : locexpr_state) :
    locexpr_state × Option Nat :=
  if op = 0 then (st, some 0)
  else
    let off := st.ctx.pos + init_off
    match read_ctx_read_form st.ctx addr_64 op with
    | none =>
        ({ st with diags := st.diags
            ++ [LocexprDiag.cantReadOperand off opcode which] }, none)
    | some (v, ctx2, bloat) =>
        let st1 : locexpr_state :=
          { st with
            ctx := ctx2
            diags := st.diags
              ++ (if bloat then [LocexprDiag.lebBloat off] else []) }
        let rres := relocation_next st1.rel off .skip_mismatched
        let st2 : locexpr_state :=
          { st1 with
            rel := rres.1
            diags := st1.diags ++ rres.2.1.map LocexprDiag.relocSkip }
        match rres.2.2 with
        | some r =>
            ({ st2 with diags := st2.diags
                ++ (rm.tokens r).map LocexprDiag.relocOne },
              some (rm.value r v))
        | none => (st2, some v)

/-- Outcome of one iteration of the opcode walk. -/
inductive locexpr_out
  | cont (st : locexpr_state)
  | stop (st : locexpr_state)

/-- One iteration of the opcode walk (lines 4061-4155): record the
opcode address, read and decode the opcode, read its operands, and run
the per-opcode validations; every defect only adds a diagnostic. -/
def locexpr_step (ops : Nat → Option (Nat × Nat)) (rm : relocate_model)
    (addr_64 : Bool) (init_off : Nat) (st : locexpr_state) : locexpr_out :=
  let opcode_off := st.ctx.pos + init_off
  let st0 : locexpr_state :=
    { st with opaddrs := addr_record_add st.opaddrs opcode_off }
  match read_ctx_read_ubyte st0.ctx with
  | none =>
      .stop { st0 with diags := st0.diags ++ [LocexprDiag.cantReadOpcode opcode_off] }
  | some (opcode, ctx1) =>
      let st1 : locexpr_state := { st0 with ctx := ctx1 }
      match ops opcode with
      | none =>
          .stop { st1 with diags := st1.diags
              ++ [LocexprDiag.unknownOpcode opcode_off opcode] }
      | some (op1, op2) =>
          match locexpr_read_form rm addr_64 init_off opcode 1 op1 st1 with
          | (st2, none) => .stop st2
          | (st2, some value1) =>
              match locexpr_read_form rm addr_64 init_off opcode 2 op2
                  st2 with
              | (st3, none) => .stop st3
              | (st3, some _value2) =>
                  if opcode = DW_OP_bra ∨ opcode = DW_OP_skip then
                    let skip : Int := int16_of_u64 value1
                    if skip = 0 then
                      .cont { st3 with diags := st3.diags
                          ++ [LocexprDiag.skipZero opcode_off] }
                    else if 0 < skip
                        ∧ ¬ read_ctx_need_data st3.ctx skip.toNat = true then
                      .cont { st3 with diags := st3.diags
                          ++ [LocexprDiag.branchOutside opcode_off] }
                    else if skip < 0 ∧ st3.ctx.pos < (-skip).toNat then
                      .cont { st3 with diags := st3.diags
                          ++ [LocexprDiag.branchBefore opcode_off] }
                    else
                      .cont { st3 with oprefs := st3.oprefs
                          ++ [(((opcode_off : Int) + skip).emod
                              (2 ^ 64)).toNat] }
                  else if opcode = DW_OP_const8u ∨ opcode = DW_OP_const8s
                      then
                    if ¬ addr_64 then
                      .cont { st3 with diags := st3.diags
                          ++ [LocexprDiag.const8On32 opcode_off] }
                    else .cont st3
                  else
                    if ¬ addr_64
                        ∧ (opcode = DW_OP_constu ∨ opcode = DW_OP_consts
                          ∨ opcode = DW_OP_deref_size
                          ∨ opcode = DW_OP_plus_uconst)
                        ∧ value1 > 2 ^ 32 - 1 then
                      .cont { st3 with diags := st3.diags
                          ++ [LocexprDiag.largeConstOn32 opcode_off] }
                    else .cont st3

/-- Opcode walk until the sub-cursor is exhausted or a read defect stops
it.  The fuel bounds the iteration count; each iteration consumes at
least the opcode byte, so the expression length plus one passed by the
wrapper is never exhausted. -/
def locexpr_loop (ops : Nat → Option (Nat × Nat)) (rm : relocate_model)
    (addr_64 : Bool) (init_off : Nat) :
    Nat → locexpr_state → locexpr_state
  | 0, st => st
  | fuel + 1, st =>
      if read_ctx_eof st.ctx then st
      else
        match locexpr_step ops rm addr_64 init_off st with
        | .stop st2 => st2
        | .cont st2 => locexpr_loop ops rm addr_64 init_off fuel st2

/-- Function check_location_expression (lines 4038-4171): open a
sub-cursor of the declared length (failing, with false, exactly when
the length overruns the enclosing cursor), walk the opcodes, and
resolve the recorded branch targets against the recorded opcode
addresses; the walk itself always ends in a true return.  The operand
table of get_location_opcode_operands (included from expr_opcodes.h,
not among the sources) is a parameter; the results hold for every
table. -/
def check_location_expression (ops : Nat → Option (Nat × Nat))
    (rm : relocate_model) (parent : read_ctx) (init_off : Nat)
    (rel : relocation_data) (length : Nat) (addr_64 : Bool) :
    Bool × List LocexprDiag × relocation_data :=
  if parent.pos + length > parent.data.length then
    (false, [LocexprDiag.notEnough], rel)
  else
    let sub : read_ctx := ⟨(parent.data.drop parent.pos).take length, 0⟩
    let st1 := locexpr_loop ops rm addr_64 init_off (length + 1)
      ⟨sub, rel, ⟨[]⟩, [], []⟩
    (true,
      st1.diags ++ st1.oprefs.filterMap (fun target =>
        if addr_record_has_addr st1.opaddrs target then none
        else some (LocexprDiag.unresolvedOpRef target)),
      st1.rel)

/-! ## Loc/range checking (dwarflint.c lines 4173-4500) -/

/-- Modelled from the spec: the Coverage interval set (spec section
4.3; dwarflint-coverage is not among the provided sources).  The set is
kept as the list of added intervals; the queries are byte-set queries,
equivalent to the merged-interval representation of the spec. -/
abbrev coverage := List (Nat × Nat)

def coverage_empty : coverage := []

def coverage_contains_point (cov : coverage) (x : Nat) : Bool :=
  cov.any fun s => s.1 ≤ x ∧ x < s.1 + s.2

def coverage_is_covered (cov : coverage) (start len : Nat) : Bool :=
  (List.range len).all fun i => coverage_contains_point cov (start + i)

def coverage_is_overlap (cov : coverage) (start len : Nat) : Bool :=
  (List.range len).any fun i => coverage_contains_point cov (start + i)

def coverage_add (cov : coverage) (start len : Nat) : coverage :=
  cov ++ [(start, len)]

/-- Diagnostics emitted by the entry loop of check_loc_or_range_ref
(lines 4217-4372). -/
inductive LocEntryDiag
  | overlapDefs (off : Nat)
  | cantReadBegin (off : Nat)
  | cantReadEnd (off : Nat)
  | endRelocBeginNot (off : Nat)
  | beginRelocEndNot (off : Nat)
  | differentSections (off : Nat)
  | noBase (off : Nat)
  | negativeRange (off : Nat)
  | emptyRange (off : Nat)
  | cantReadExprLen (off : Nat)
  | exprNotEnough (off : Nat)
  | baseUnchanged (off : Nat)
  | relocSkip (d : RelocDiag)
  | relocOne (token : Nat)
  | fromLocexpr (d : LocexprDiag)
deriving DecidableEq, Repr

/-- Diagnostics of check_loc_or_range_ref and the surrounding section
pass: the two head diagnostics of the reference check, the
unreferenced-portion reports of the pass loop, and the entry-loop
diagnostics embedded by the entry constructor. -/
inductive LocRangeDiag
  | invalidRefOutside (addr : Nat)
  | pointsInto (addr : Nat)
  | relocSkipRef (d : RelocDiag)
  | entry (d : LocEntryDiag)
deriving DecidableEq, Repr

/-- Parameters of one loc/range section pass: the operand table for
nested location expressions, the relocation behaviour, whether the
section is .debug_loc (contains location expressions), and the CU
address width. -/
structure locrange_params where
  ops : Nat → Option (Nat × Nat)
  rm : relocate_model
  secIsLoc : Bool
  addr_64 : Bool

/-- State of the entry walk of check_loc_or_range_ref: the cursor over
the section bytes, the relocation cursor, the persistent coverage, the
optional CU coverage (the ranges-vs-aranges accumulation; the
coverage_map of do_range_coverage is compile-time disabled, line 406),
the current base address, the overlap flag and the running retval. -/
structure locrange_state where
  ctx : read_ctx
  rel : relocation_data
  cov : coverage
  cu_cov : Option coverage
  base : Nat
  overlap : Bool
  retval : Bool

/-- Outcome of one iteration of the entry walk. -/
inductive locrange_out
  | cont (st : locrange_state)
  | stop (st : locrange_state)

def locrange_out_state : locrange_out → locrange_state
  | .cont st => st
  | .stop st => st

/-- One iteration of the entry loop of check_loc_or_range_ref (lines
4217-4372): read one (begin, end) pair with overlap checks and
relocations, classify it as terminator, base-address selection or live
entry, validate a .debug_loc location expression, and mark the visited
bytes in the coverage.  Returns the outcome and the emitted
diagnostics. -/
def locrange_step (p : locrange_params) (st : locrange_state) :
    locrange_out × List LocEntryDiag :=
  let w : Nat := if p.addr_64 then 8 else 4
  let escape : Nat := if p.addr_64 then 2 ^ 64 - 1 else 2 ^ 32 - 1
  let where_off := st.ctx.pos
  let begin_off := st.ctx.pos
  let ov1 : Bool := ¬ st.overlap ∧ coverage_is_overlap st.cov begin_off w
  let d1 : List LocEntryDiag :=
    if ov1 then [LocEntryDiag.overlapDefs where_off] else []
  let st0 : locrange_state :=
    if ov1 then { st with overlap := true, retval := false } else st
  match read_ctx_read_offset st0.ctx p.addr_64 with
  | none =>
      (.stop { st0 with retval := false },
        d1 ++ [LocEntryDiag.cantReadBegin where_off])
  | some (begin_read, ctx1) =>
      let st1 : locrange_state := { st0 with ctx := ctx1 }
      let rres1 := relocation_next st1.rel begin_off .skip_mismatched
      let st2 : locrange_state := { st1 with rel := rres1.1 }
      let begin_relocated : Bool := rres1.2.2.isSome
      let begin_addr : Nat :=
        match rres1.2.2 with
        | some r => p.rm.value r begin_read
        | none => begin_read
      let begin_symbol : Option Nat :=
        match rres1.2.2 with
        | some r => p.rm.symbol r
        | none => none
      let d2 : List LocEntryDiag :=
        rres1.2.1.map LocEntryDiag.relocSkip
          ++ (match rres1.2.2 with
            | some r => (p.rm.tokens r).map LocEntryDiag.relocOne
            | none => [])
      let end_off := st2.ctx.pos
      let ov2 : Bool := ¬ st2.overlap ∧ coverage_is_overlap st2.cov end_off w
      let d3 : List LocEntryDiag :=
        if ov2 then [LocEntryDiag.overlapDefs where_off] else []
      let st3 : locrange_state :=
        if ov2 then { st2 with overlap := true, retval := false } else st2
      match read_ctx_read_offset st3.ctx p.addr_64 with
      | none =>
          (.stop { st3 with retval := false },
            d1 ++ d2 ++ d3 ++ [LocEntryDiag.cantReadEnd where_off])
      | some (end_read, ctx2) =>
          let st4 : locrange_state := { st3 with ctx := ctx2 }
          let rres2 := relocation_next st4.rel end_off .skip_mismatched
          let st5 : locrange_state := { st4 with rel := rres2.1 }
          let end_relocated : Bool := rres2.2.2.isSome
          let end_addr : Nat :=
            match rres2.2.2 with
            | some r => p.rm.value r end_read
            | none => end_read
          let d4 : List LocEntryDiag :=
            rres2.2.1.map LocEntryDiag.relocSkip
              ++ (match rres2.2.2 with
                | some r =>
                    (p.rm.tokens r).map LocEntryDiag.relocOne
                      ++ (if begin_addr ≠ escape then
                          if ¬ begin_relocated then
                            [LocEntryDiag.endRelocBeginNot where_off]
                          else
                            match begin_symbol, p.rm.symbol r with
                            | some s1, some s2 =>
                                if s1 ≠ s2 then
                                  [LocEntryDiag.differentSections where_off]
                                else []
                            | _, _ => []
                        else [])
                | none =>
                    if begin_relocated then
                      [LocEntryDiag.beginRelocEndNot where_off]
                    else [])
          let done : Bool := begin_addr = 0 ∧ end_addr = 0
            ∧ ¬ begin_relocated ∧ ¬ end_relocated
          let finish := fun (stX : locrange_state)
              (dsX : List LocEntryDiag) =>
            let st7 : locrange_state := { stX with
              cov := coverage_add stX.cov where_off
                (stX.ctx.pos - where_off) }
            if done then (locrange_out.stop st7, dsX)
            else (locrange_out.cont st7, dsX)
          if done then finish st5 (d1 ++ d2 ++ d3 ++ d4)
          else if begin_addr ≠ escape then
            let d5 : List LocEntryDiag :=
              if st5.base = 2 ^ 64 - 1 then [LocEntryDiag.noBase where_off]
              else []
            let d6 : List LocEntryDiag :=
              if end_addr < begin_addr then
                [LocEntryDiag.negativeRange where_off]
              else if begin_addr = end_addr then
                [LocEntryDiag.emptyRange where_off]
              else []
            let st6 : locrange_state :=
              if ¬ (end_addr < begin_addr) ∧ ¬ (begin_addr = end_addr)
                  ∧ st5.base < 2 ^ 64 - 2 ∧ st5.retval
                  ∧ st5.cu_cov.isSome then
                { st5 with cu_cov := st5.cu_cov.map (fun cc =>
                    coverage_add cc ((begin_addr + st5.base) % 2 ^ 64)
                      (end_addr - begin_addr)) }
              else st5
            if p.secIsLoc then
              let len_off := st6.ctx.pos
              let ov3 : Bool := ¬ st6.overlap
                ∧ coverage_is_overlap st6.cov len_off 2
              let d7 : List LocEntryDiag :=
                if ov3 then [LocEntryDiag.overlapDefs where_off] else []
              let st7 : locrange_state :=
                if ov3 then { st6 with overlap := true, retval := false }
                else st6
              match read_ctx_read_2ubyte st7.ctx with
              | none =>
                  (.stop { st7 with retval := false },
                    d1 ++ d2 ++ d3 ++ d4 ++ d5 ++ d6 ++ d7
                      ++ [LocEntryDiag.cantReadExprLen where_off])
              | some (len, ctx3) =>
                  let st8 : locrange_state := { st7 with ctx := ctx3 }
                  let expr_start := st8.ctx.pos
                  let cres := check_location_expression p.ops p.rm st8.ctx
                    expr_start st8.rel len p.addr_64
                  let st9 : locrange_state := { st8 with rel := cres.2.2 }
                  let d8 : List LocEntryDiag :=
                    cres.2.1.map LocEntryDiag.fromLocexpr
                  if cres.1 = false then
                    (.stop { st9 with retval := false },
                      d1 ++ d2 ++ d3 ++ d4 ++ d5 ++ d6 ++ d7 ++ d8)
                  else
                    let expr_end := st9.ctx.pos
                    let ov4 : Bool := ¬ st9.overlap
                      ∧ coverage_is_overlap st9.cov expr_start
                          (expr_end - expr_start)
                    let d9 : List LocEntryDiag :=
                      if ov4 then [LocEntryDiag.overlapDefs where_off]
                      else []
                    let stA : locrange_state :=
                      if ov4 then
                        { st9 with overlap := true, retval := false }
                      else st9
                    if stA.ctx.pos + len > stA.ctx.data.length then
                      (.stop { stA with retval := false },
                        d1 ++ d2 ++ d3 ++ d4 ++ d5 ++ d6 ++ d7 ++ d8 ++ d9
                          ++ [LocEntryDiag.exprNotEnough where_off])
                    else
                      finish { stA with ctx := ⟨stA.ctx.data,
                          stA.ctx.pos + len⟩ }
                        (d1 ++ d2 ++ d3 ++ d4 ++ d5 ++ d6 ++ d7 ++ d8 ++ d9)
            else
              finish st6 (d1 ++ d2 ++ d3 ++ d4 ++ d5 ++ d6)
          else
            if end_addr = st5.base then
              finish st5
                (d1 ++ d2 ++ d3 ++ d4 ++ [LocEntryDiag.baseUnchanged
                  where_off])
            else
              finish { st5 with base := end_addr } (d1 ++ d2 ++ d3 ++ d4)

/-- Entry walk until end of section, a terminator entry or a read
defect.  The fuel bounds the iteration count; each iteration consumes at
least one begin field, so the wrapper fuel (section size plus one) is
never exhausted. -/
def locrange_loop (p : locrange_params) :
    Nat → locrange_state → List LocEntryDiag →
      locrange_state × List LocEntryDiag
  | 0, st, ds => (st, ds)
  | fuel + 1, st, ds =>
      if read_ctx_eof st.ctx then (st, ds)
      else
        match locrange_step p st with
        | (.stop st2, ds2) => (st2, ds ++ ds2)
        | (.cont st2, ds2) => locrange_loop p fuel st2 (ds ++ ds2)

/-- Function check_loc_or_range_ref (lines 4173-4375): seek to the
referenced offset (an overrun is an error and returns false), diagnose
a reference whose target the persistent coverage already contains, and
walk the entries from there.  Returns the retval, the emitted
diagnostics, and the updated relocation cursor and coverages. -/
def check_loc_or_range_ref (p : locrange_params) (data : List Nat)
    (cu_low_pc : Nat) (rel : relocation_data) (cov : coverage)
    (cu_cov : Option coverage) (addr : Nat) :
    Bool × List LocRangeDiag × relocation_data × coverage
      × Option coverage :=
  if addr > data.length then
    (false, [LocRangeDiag.invalidRefOutside addr], rel, cov, cu_cov)
  else
    let covered : Bool := coverage_is_covered cov addr 1
    let head : List LocRangeDiag :=
      if covered then [LocRangeDiag.pointsInto addr] else []
    let st0 : locrange_state :=
      ⟨⟨data, addr⟩, rel, cov, cu_cov, cu_low_pc, false, !covered⟩
    let res := locrange_loop p (data.length + 1) st0 []
    (res.1.retval, head ++ res.2.map LocRangeDiag.entry, res.1.rel,
      res.1.cov, res.1.cu_cov)

/-- State of the reference loop of check_loc_or_range_structural. -/
structure locrange_pass_state where
  rel : relocation_data
  cov : coverage
  cu_cov : Option coverage
  retval : Bool
  last_off : Option Nat
  diags : List LocRangeDiag

/-- Reference loop of check_loc_or_range_structural (lines 4448-4470)
over the merged and sorted reference targets: a target equal to the
previous one is skipped silently; otherwise the relocation cursor is
advanced to just before the target (diagnosing untargeted relocations)
and the list at the target is walked. -/
def loc_range_pass_go (p : locrange_params) (data : List Nat)
    (cu_low_pc : Nat) :
    List Nat → locrange_pass_state → locrange_pass_state
  | [], st => st
  | off :: rest, st =>
      if st.last_off = some off then
        loc_range_pass_go p data cu_low_pc rest st
      else
        let st1 : locrange_pass_state :=
          match st.last_off with
          | some _ =>
              let sres := relocation_skip st.rel off .skip_unref
              { st with
                rel := sres.1
                diags := st.diags ++ sres.2.map LocRangeDiag.relocSkipRef }
          | none => st
        let r := check_loc_or_range_ref p data cu_low_pc st1.rel st1.cov
          st1.cu_cov off
        loc_range_pass_go p data cu_low_pc rest
          ⟨r.2.2.1, r.2.2.2.1, r.2.2.2.2, st1.retval && r.1, some off,
            st1.diags ++ r.2.1⟩

/-- Whole reference pass over one section, starting with an empty
persistent coverage and a true retval (lines 4389-4470). -/
def loc_range_pass (p : locrange_params) (data : List Nat)
    (cu_low_pc : Nat) (refs : List Nat) (rel : relocation_data)
    (cu_cov : Option coverage) : locrange_pass_state :=
  loc_range_pass_go p data cu_low_pc refs
    ⟨rel, coverage_empty, cu_cov, true, none, []⟩

/-- Postcondition of the amended claim C6: the binary-search duplicate
handling behaves like the linear first-occurrence lookup, so a repeated
code draws exactly one error citing the first definition site and is
not stored; the loaded table is strictly sorted by code, and the binary
lookup succeeds exactly for the codes present among the decoded
abbreviations. -/
def C6_post (entries : List abbrev_rec) : Prop :=
  abbrev_table_load entries = abbrev_load_linear entries
  ∧ ((abbrev_table_load entries).1.map (fun a => a.code)).Pairwise (· < ·)
  ∧ (∀ c, (abbrev_table_find_abbrev (abbrev_table_load entries).1 c).isSome
        = true
      ↔ c ∈ entries.map (fun a => a.code))

/-! ## Theorems -/

/-- Claim C1: for every message category cat and every pair of criteria,
a call to message(cat, where, fmt) emits at most one diagnostic line; it
emits zero lines iff warning_criteria rejects cat, and when it emits,
the line has severity error iff error_criteria also accepts cat,
otherwise severity warning.  A criterion accepts cat iff some term t
satisfies positive(t) ⊆ cat and negative(t) ∩ cat = ∅. -/
theorem claim_C1 (wc ec : message_criteria) (cat : Nat) :
    (wr_message wc ec cat).length ≤ 1
    ∧ (wr_message wc ec cat = [] ↔ message_accept wc cat = false)
    ∧ (message_accept wc cat = true →
        wr_message wc ec cat
          = [if message_accept ec cat = true then Severity.error
             else Severity.warning])
    ∧ (message_accept wc cat = true ↔
        ∃ t ∈ wc, t.positive &&& cat = t.positive ∧ t.negative &&& cat = 0) := by
  refine ⟨?_, ?_, ?_, ?_⟩
  · unfold wr_message
    by_cases h : message_accept wc cat <;> simp [h] <;>
      by_cases h2 : message_accept ec cat <;> simp [h2]
  · unfold wr_message
    by_cases h : message_accept wc cat <;> simp [h] <;>
      by_cases h2 : message_accept ec cat <;> simp [h2]
  · intro h
    unfold wr_message
    by_cases h2 : message_accept ec cat <;> simp [h, h2]
  · unfold message_accept term_matches
    simp [List.any_eq_true, Bool.and_eq_true, beq_iff_eq]

/-- Witness for claim C1 at a concrete accepted category. -/
theorem claim_C1_witness :
    message_accept [(⟨mc_none, mc_none⟩ : message_term)] mc_info = true
    ∧ wr_message [(⟨mc_none, mc_none⟩ : message_term)] [] mc_info
        = [Severity.warning] := by
  refine ⟨by decide, ?_⟩
  have h := (claim_C1 [(⟨mc_none, mc_none⟩ : message_term)] [] mc_info).2.2.1
    (by decide)
  simpa using h

/-- Invariant of the diagnostic stream: the error counter always equals
the number of printed lines. -/
theorem diag_run_count_eq (wc ec : message_criteria) :
    ∀ (calls : List DiagCall) (st : DiagState),
      st.error_count = st.lines.length →
      (calls.foldl (diag_step wc ec) st).error_count
        = (calls.foldl (diag_step wc ec) st).lines.length := by
  intro calls
  induction calls with
  | nil => intro st h; simpa using h
  | cons c rest ih =>
      intro st h
      apply ih
      cases c with
      | callError => simp [diag_step, wr_verror, h]
      | callWarning => simp [diag_step, wr_vwarning, h]
      | callMessage cat =>
          by_cases h1 : message_accept wc cat
          · by_cases h2 : message_accept ec cat <;>
              simp [diag_step, wr_verror, wr_vwarning, h1, h2, h]
          · simpa [diag_step, h1] using h

/-- Claim C8: every call to warning(where, fmt, ...) prints a line with
severity warning and increments the error counter, and the process exit
code is 1 iff at least one diagnostic (error or warning, or an accepted
message of either severity) was printed over all input files, else 0. -/
theorem claim_C8 (wc ec : message_criteria) (calls : List DiagCall) :
    (∀ st : DiagState,
      diag_step wc ec st .callWarning
        = ⟨st.error_count + 1, st.lines ++ [Severity.warning]⟩)
    ∧ (diag_run wc ec calls).error_count
        = (diag_run wc ec calls).lines.length
    ∧ (main_exit_code (diag_run wc ec calls) = 1
        ↔ (diag_run wc ec calls).lines ≠ [])
    ∧ (main_exit_code (diag_run wc ec calls) = 0
        ↔ (diag_run wc ec calls).lines = []) := by
  have hcount : (diag_run wc ec calls).error_count
      = (diag_run wc ec calls).lines.length :=
    diag_run_count_eq wc ec calls initial_diag_state rfl
  refine ⟨fun st => rfl, hcount, ?_, ?_⟩
  · unfold main_exit_code
    rw [hcount]
    rcases h : (diag_run wc ec calls).lines with _ | ⟨a, l⟩ <;> simp
  · unfold main_exit_code
    rw [hcount]
    rcases h : (diag_run wc ec calls).lines with _ | ⟨a, l⟩ <;> simp

theorem list_getD_drop {α : Type} (l : List α) (n m : Nat) (d : α) :
    (l.drop n).getD m d = l.getD (n + m) d := by
  induction l generalizing n m with
  | nil => simp [List.getD]
  | cons a rest ih =>
      cases n with
      | zero => simp
      | succ n2 =>
          simpa [Nat.succ_add] using ih n2 m

theorem list_getD_take {α : Type} (l : List α) (n m : Nat) (d : α)
    (h : m < n) : (l.take n).getD m d = l.getD m d := by
  induction l generalizing n m with
  | nil => simp
  | cons a rest ih =>
      cases n with
      | zero => omega
      | succ n2 =>
          cases m with
          | zero => simp
          | succ m2 => simpa using ih n2 m2 (by omega)

theorem list_mem_iff_getD {α : Type} [DecidableEq α] (l : List α) (x d : α) :
    x ∈ l ↔ ∃ k, k < l.length ∧ l.getD k d = x := by
  constructor
  · intro hmem
    obtain ⟨k, hk, hget⟩ := List.getElem_of_mem hmem
    exact ⟨k, hk, by rw [List.getD_eq_getElem l d hk]; exact hget⟩
  · intro ⟨k, hk, hget⟩
    rw [List.getD_eq_getElem l d hk] at hget
    rw [← hget]
    exact List.getElem_mem hk

/-- Core walk of relocation_next characterized: the cursor moves by some
k entries, all scanned entries lie at or before the sought offset, all
remaining ones at or past it, the result entry (if any) is the valid
entry at exactly the offset, and the diagnostics are the skip messages
of the scanned valid entries before the offset. -/
theorem relocation_next_list_spec (offset : Nat) (st : skip_type) :
    ∀ (l : List relocation) (index : Nat),
      l.Pairwise (fun a b => a.offset ≤ b.offset) →
      ∃ k, (relocation_next_list l index offset st).1 = index + k
        ∧ k ≤ l.length
        ∧ (∀ j, j < k → (l.getD j dummy_rel).offset ≤ offset)
        ∧ (∀ j, k ≤ j → j < l.length → offset ≤ (l.getD j dummy_rel).offset)
        ∧ ((relocation_next_list l index offset st).2.2 = none →
            k = l.length ∨ offset < (l.getD k dummy_rel).offset)
        ∧ (∀ rel, (relocation_next_list l index offset st).2.2 = some rel →
            rel.offset = offset ∧ rel.invalid = false ∧ 0 < k
              ∧ l.getD (k - 1) dummy_rel = rel)
        ∧ (relocation_next_list l index offset st).2.1
            = (l.take k).flatMap (rel_skip_fn st offset) := by
  intro l
  induction l with
  | nil =>
      intro index _
      exact ⟨0, by simp [relocation_next_list], by simp,
        fun j hj => absurd hj (Nat.not_lt_zero j),
        fun j _ hj => absurd hj (Nat.not_lt_zero j),
        fun _ => Or.inl rfl,
        fun rel h => by simp [relocation_next_list] at h,
        by simp [relocation_next_list]⟩
  | cons e rest ih =>
      intro index hp
      have hd1 : ∀ b ∈ rest, e.offset ≤ b.offset := (List.pairwise_cons.mp hp).1
      have hd2 : rest.Pairwise (fun a b => a.offset ≤ b.offset) :=
        (List.pairwise_cons.mp hp).2
      by_cases h1 : e.offset > offset
      · -- the head entry is ahead of us: stop without moving
        refine ⟨0, ?_, ?_, ?_, ?_, ?_, ?_, ?_⟩
        · simp [relocation_next_list, h1]
        · simp
        · intro j hj; exact absurd hj (Nat.not_lt_zero j)
        · intro j _ hj
          match j with
          | 0 => simpa using Nat.le_of_lt h1
          | m + 1 =>
              have hm : m < rest.length := by simpa using hj
              have hmem : rest.getD m dummy_rel ∈ rest := by
                rw [List.getD_eq_getElem rest dummy_rel hm]
                exact List.getElem_mem hm
              have := hd1 _ hmem
              simpa using le_trans (Nat.le_of_lt h1) this
        · intro _
          exact Or.inr (by simpa using h1)
        · intro rel h
          simp [relocation_next_list, h1] at h
        · simp [relocation_next_list, h1]
      · by_cases h2 : e.invalid
        · -- invalid entry: silently consumed
          obtain ⟨k, hk1, hk2, hk3, hk4, hk5, hk6, hk7⟩ := ih (index + 1) hd2
          have hred : relocation_next_list (e :: rest) index offset st
              = relocation_next_list rest (index + 1) offset st := by
            simp [relocation_next_list, h1, h2]
          refine ⟨k + 1, ?_, ?_, ?_, ?_, ?_, ?_, ?_⟩
          · rw [hred, hk1]; omega
          · simpa using Nat.succ_le_succ hk2
          · intro j hj
            match j with
            | 0 => simpa using Nat.le_of_not_lt h1
            | m + 1 => simpa using hk3 m (by omega)
          · intro j hj hlen
            match j with
            | 0 => omega
            | m + 1 =>
                have := hk4 m (by omega) (by simpa using hlen)
                simpa using this
          · intro hn
            rw [hred] at hn
            rcases hk5 hn with h | h
            · exact Or.inl (by simpa using congrArg Nat.succ h)
            · exact Or.inr (by simpa using h)
          · intro rel hr
            rw [hred] at hr
            obtain ⟨ha, hb, hc, hdd⟩ := hk6 rel hr
            refine ⟨ha, hb, Nat.succ_pos k, ?_⟩
            have : k + 1 - 1 = (k - 1) + 1 := by omega
            rw [this, List.getD_cons_succ]
            exact hdd
          · rw [hred, hk7]
            have ht : (e :: rest).take (k + 1) = e :: rest.take k := rfl
            rw [ht, List.flatMap_cons]
            have he : rel_skip_fn st offset e = [] := by
              simp [rel_skip_fn, h2]
            rw [he, List.nil_append]
        · by_cases h3 : e.offset < offset
          · -- valid entry before the offset: diagnose and consume
            obtain ⟨k, hk1, hk2, hk3, hk4, hk5, hk6, hk7⟩ := ih (index + 1) hd2
            have hred1 : (relocation_next_list (e :: rest) index offset st).1
                = (relocation_next_list rest (index + 1) offset st).1 := by
              simp [relocation_next_list, h1, h2, h3]
            have hred2 : (relocation_next_list (e :: rest) index offset st).2.2
                = (relocation_next_list rest (index + 1) offset st).2.2 := by
              simp [relocation_next_list, h1, h2, h3]
            have hred3 : (relocation_next_list (e :: rest) index offset st).2.1
                = skip_diags st e.offset
                    ++ (relocation_next_list rest (index + 1) offset st).2.1 := by
              simp [relocation_next_list, h1, h2, h3]
            refine ⟨k + 1, ?_, ?_, ?_, ?_, ?_, ?_, ?_⟩
            · rw [hred1, hk1]; omega
            · simpa using Nat.succ_le_succ hk2
            · intro j hj
              match j with
              | 0 => simpa using Nat.le_of_lt h3
              | m + 1 => simpa using hk3 m (by omega)
            · intro j hj hlen
              match j with
              | 0 => omega
              | m + 1 =>
                  have := hk4 m (by omega) (by simpa using hlen)
                  simpa using this
            · intro hn
              rw [hred2] at hn
              rcases hk5 hn with h | h
              · exact Or.inl (by simpa using congrArg Nat.succ h)
              · exact Or.inr (by simpa using h)
            · intro rel hr
              rw [hred2] at hr
              obtain ⟨ha, hb, hc, hdd⟩ := hk6 rel hr
              refine ⟨ha, hb, Nat.succ_pos k, ?_⟩
              have : k + 1 - 1 = (k - 1) + 1 := by omega
              rw [this, List.getD_cons_succ]
              exact hdd
            · rw [hred3, hk7]
              have ht : (e :: rest).take (k + 1) = e :: rest.take k := rfl
              rw [ht, List.flatMap_cons]
              have he : rel_skip_fn st offset e = skip_diags st e.offset := by
                simp [rel_skip_fn, h2, h3]
              rw [he]
          · -- valid entry at exactly the offset: return it
            have heq : e.offset = offset := by omega
            have hred : relocation_next_list (e :: rest) index offset st
                = (index + 1, [], some e) := by
              simp [relocation_next_list, h1, h2, h3]
            refine ⟨1, ?_, ?_, ?_, ?_, ?_, ?_, ?_⟩
            · rw [hred]
            · simp
            · intro j hj
              match j with
              | 0 => simpa using Nat.le_of_eq heq
              | m + 1 => omega
            · intro j hj hlen
              match j with
              | 0 => omega
              | m + 1 =>
                  have hm : m < rest.length := by simpa using hlen
                  have hmem : rest.getD m dummy_rel ∈ rest := by
                    rw [List.getD_eq_getElem rest dummy_rel hm]
                    exact List.getElem_mem hm
                  have := hd1 _ hmem
                  simpa using le_trans (Nat.le_of_eq heq.symm) this
            · intro hn
              rw [hred] at hn
              simp at hn
            · intro rel hr
              rw [hred] at hr
              simp at hr
              subst hr
              exact ⟨heq, by simpa using h2, Nat.one_pos, by simp⟩
            · rw [hred]
              have ht : (e :: rest).take 1 = [e] := rfl
              rw [ht]
              simp [rel_skip_fn, h3]

/-- Claim C2 counterexample: on a cursor over the single valid entry at
offset 5, next(5) returns that entry and leaves the cursor index at 1,
although the first (and only) entry with offset at least 5 sits at
index 0; the cursor therefore does not point at the first entry with
offset greater than or equal to the requested one. -/
theorem claim_C2_counterexample :
    relocation_next ⟨[⟨5, false⟩], 0⟩ 5 .skip_ok
      = (⟨[⟨5, false⟩], 1⟩, [], some ⟨5, false⟩)
    ∧ (([⟨5, false⟩] : List relocation).getD 0 dummy_rel).offset ≥ 5
    ∧ (1 : Nat) ≠ 0 := by
  refine ⟨by rfl, by decide, by decide⟩

/-- Claim C2, amended: for a cursor whose entries are sorted by offset,
after next(o) every entry scanned by the call has offset at most o and
every remaining entry has offset at least o; when no entry is returned
the cursor stops at the first remaining entry with offset strictly
greater than o, and a returned entry is valid, lies at exactly o, and
the cursor points one past it; entries before o are skipped silently for
skip_ok and otherwise reported with the unreferenced-portion or
mismatched diagnostic selected by the skip type, and invalid entries are
always skipped silently. -/
theorem claim_C2_amended (rd : relocation_data) (offset : Nat)
    (st : skip_type)
    (hs : rd.rel.Pairwise (fun a b => a.offset ≤ b.offset)) :
    relocation_next_post rd offset st := by
  unfold relocation_next_post
  by_cases he : rd.rel.isEmpty
  · have hnil : rd.rel = [] := List.isEmpty_iff.mp he
    have hred : relocation_next rd offset st = (rd, [], none) := by
      simp [relocation_next, he]
    rw [hred]
    refine ⟨rfl, le_refl _, ?_, ?_, ?_, ?_, ?_⟩
    · intro j h1 h2
      have h2a : j < rd.index := h2
      omega
    · intro j h1 h2; rw [hnil] at h2; simp at h2
    · intro h1 h2
      rw [hnil]
      simp
    · intro rel h; simp at h
    · simp [hnil]
  · have hne : rd.rel.isEmpty = false := by
      simpa using he
    have hsub : (rd.rel.drop rd.index).Pairwise
        (fun a b => a.offset ≤ b.offset) :=
      hs.sublist (List.drop_sublist rd.index rd.rel)
    obtain ⟨k, hk1, hk2, hk3, hk4, hk5, hk6, hk7⟩ :=
      relocation_next_list_spec offset st (rd.rel.drop rd.index) rd.index hsub
    have hred : relocation_next rd offset st
        = (⟨rd.rel, rd.index + k⟩,
           (relocation_next_list (rd.rel.drop rd.index) rd.index offset st).2.1,
           (relocation_next_list (rd.rel.drop rd.index) rd.index offset st).2.2) := by
      simp [relocation_next, hne, hk1]
    rw [hred]
    refine ⟨rfl, Nat.le_add_right rd.index k, ?_, ?_, ?_, ?_, ?_⟩
    · intro j h1 h2
      have h2a : j < rd.index + k := h2
      have hj : j - rd.index < k := by omega
      have := hk3 (j - rd.index) hj
      rwa [list_getD_drop, Nat.add_sub_cancel' h1] at this
    · intro j h1 h2
      have h1a : rd.index + k ≤ j := h1
      have hidx : rd.index ≤ j := by omega
      have hlen : j - rd.index < (rd.rel.drop rd.index).length := by
        simp [List.length_drop]; omega
      have := hk4 (j - rd.index) (by omega) hlen
      rwa [list_getD_drop, Nat.add_sub_cancel' hidx] at this
    · intro hn hle
      have hn2 : (relocation_next_list (rd.rel.drop rd.index) rd.index
          offset st).2.2 = none := hn
      show rd.rel.length ≤ rd.index + k
        ∨ offset < (rd.rel.getD (rd.index + k) dummy_rel).offset
      rcases hk5 hn2 with h | h
      · left
        have := List.length_drop rd.index rd.rel
        omega
      · right
        rwa [list_getD_drop] at h
    · intro rel hr
      have hr2 : (relocation_next_list (rd.rel.drop rd.index) rd.index
          offset st).2.2 = some rel := hr
      obtain ⟨ha, hb, hc, hdd⟩ := hk6 rel hr2
      refine ⟨ha, hb, ?_, ?_⟩
      · show rd.index < rd.index + k
        omega
      · show rd.rel.getD (rd.index + k - 1) dummy_rel = rel
        rw [list_getD_drop] at hdd
        have : rd.index + (k - 1) = rd.index + k - 1 := by omega
        rwa [this] at hdd
    · show (relocation_next_list (rd.rel.drop rd.index) rd.index
          offset st).2.1
        = ((rd.rel.drop rd.index).take (rd.index + k - rd.index)).flatMap
            (rel_skip_fn st offset)
      rw [hk7, Nat.add_sub_cancel_left]

/-- Witness for the amended claim C2 on a concrete sorted cursor. -/
theorem claim_C2_amended_witness :
    ([⟨1, false⟩, ⟨3, true⟩, ⟨5, false⟩] : List relocation).Pairwise
        (fun a b => a.offset ≤ b.offset)
    ∧ relocation_next_post ⟨[⟨1, false⟩, ⟨3, true⟩, ⟨5, false⟩], 0⟩ 5
        .skip_mismatched :=
  ⟨by decide,
    claim_C2_amended ⟨[⟨1, false⟩, ⟨3, true⟩, ⟨5, false⟩], 0⟩ 5
      .skip_mismatched (by decide)⟩

/-- Diagnostics require a scanned valid entry before the offset: when no
remaining entry lies before the offset, the walk is silent. -/
theorem relocation_next_list_no_diag (offset : Nat) (st : skip_type) :
    ∀ (l : List relocation) (index : Nat),
      (∀ e ∈ l, ¬ e.offset < offset) →
      (relocation_next_list l index offset st).2.1 = [] := by
  intro l
  induction l with
  | nil => intro index _; simp [relocation_next_list]
  | cons e rest ih =>
      intro index hall
      by_cases h1 : e.offset > offset
      · simp [relocation_next_list, h1]
      · by_cases h2 : e.invalid
        · have := ih (index + 1) (fun x hx => hall x (List.mem_cons_of_mem e hx))
          simpa [relocation_next_list, h1, h2] using this
        · have h3 : ¬ e.offset < offset := hall e (List.mem_cons_self e rest)
          simp [relocation_next_list, h1, h2, h3]

/-- Claim C9: draining the relocation list of a section twice produces
no diagnostics on the second call, for every sorted relocation list. -/
theorem claim_C9 (rd : relocation_data)
    (hs : rd.rel.Pairwise (fun a b => a.offset ≤ b.offset)) :
    (relocation_skip_rest (relocation_skip_rest rd).1).2 = [] := by
  by_cases he : rd.rel.isEmpty
  · have h1 : relocation_skip_rest rd = (rd, []) := by
      simp [relocation_skip_rest, he]
    rw [h1]
    simp [relocation_skip_rest, he]
  · have hne : rd.rel.isEmpty = false := by simpa using he
    have hsub : (rd.rel.drop rd.index).Pairwise
        (fun a b => a.offset ≤ b.offset) :=
      hs.sublist (List.drop_sublist rd.index rd.rel)
    obtain ⟨k, hk1, hk2, hk3, hk4, hk5, hk6, hk7⟩ :=
      relocation_next_list_spec (UINT64_MAX) .skip_mismatched
        (rd.rel.drop rd.index) rd.index hsub
    have hfirst : (relocation_skip_rest rd).1
        = ⟨rd.rel, rd.index + k⟩ := by
      simp [relocation_skip_rest, relocation_next, hne, hk1]
    rw [hfirst]
    have hrest : ∀ e ∈ rd.rel.drop (rd.index + k),
        ¬ e.offset < UINT64_MAX := by
      intro e hmem
      obtain ⟨m, hm, hget⟩ := List.getElem_of_mem hmem
      have hlen : m + k < (rd.rel.drop rd.index).length := by
        have h1 := List.length_drop (rd.index + k) rd.rel
        have h2 := List.length_drop rd.index rd.rel
        omega
      have := hk4 (k + m) (by omega) (by omega)
      have hgd : (rd.rel.drop rd.index).getD (k + m) dummy_rel = e := by
        rw [list_getD_drop]
        have hh : (rd.rel.drop (rd.index + k)).getD m dummy_rel = e := by
          rw [List.getD_eq_getElem _ _ (by omega)]
          exact hget
        rw [list_getD_drop] at hh
        rwa [show rd.index + (k + m) = rd.index + k + m by omega]
      rw [hgd] at this
      omega
    have hred2 : (relocation_skip_rest ⟨rd.rel, rd.index + k⟩).2
        = (relocation_next_list (rd.rel.drop (rd.index + k)) (rd.index + k)
            (UINT64_MAX) .skip_mismatched).2.1 := by
      simp [relocation_skip_rest, relocation_next, hne]
    rw [hred2]
    exact relocation_next_list_no_diag (UINT64_MAX) .skip_mismatched
      (rd.rel.drop (rd.index + k)) (rd.index + k) hrest

/-- Witness for claim C9 on a concrete sorted cursor. -/
theorem claim_C9_witness :
    ([⟨1, false⟩, ⟨7, false⟩] : List relocation).Pairwise
        (fun a b => a.offset ≤ b.offset)
    ∧ (relocation_skip_rest
        (relocation_skip_rest ⟨[⟨1, false⟩, ⟨7, false⟩], 0⟩).1).2 = [] :=
  ⟨by decide, claim_C9 ⟨[⟨1, false⟩, ⟨7, false⟩], 0⟩ (by decide)⟩

/-- Strict monotonicity of positions in a sorted address list. -/
theorem sorted_getD_strict (l : List Nat) (hs : l.Pairwise (· < ·)) :
    ∀ i j, i < j → j < l.length → l.getD i 0 < l.getD j 0 := by
  intro i j hij hj
  have hi : i < l.length := lt_trans hij hj
  rw [List.getD_eq_getElem l 0 hi, List.getD_eq_getElem l 0 hj]
  exact List.pairwise_iff_getElem.mp hs i j hi hj hij

/-- Monotonicity of positions in a sorted address list. -/
theorem sorted_getD_mono (l : List Nat) (hs : l.Pairwise (· < ·)) :
    ∀ i j, i ≤ j → j < l.length → l.getD i 0 ≤ l.getD j 0 := by
  intro i j hij hj
  rcases Nat.lt_or_ge i j with h | h
  · exact le_of_lt (sorted_getD_strict l hs i j h hj)
  · have : i = j := by omega
    rw [this]

/-- Characterization of the binary-search loop of addr_record_find_addr:
with enough fuel and window hypotheses, the returned position separates
the addresses below addr from those at or above it. -/
theorem addr_record_find_loop_spec (l : List Nat) (addr : Nat)
    (hs : l.Pairwise (· < ·)) :
    ∀ (fuel a b : Nat), b - a ≤ fuel → a ≤ b → b ≤ l.length →
      (∀ j, j < a → l.getD j 0 < addr) →
      (∀ j, b ≤ j → j < l.length → addr < l.getD j 0) →
      a ≤ addr_record_find_loop l addr a b fuel
      ∧ addr_record_find_loop l addr a b fuel ≤ b
      ∧ (∀ j, j < addr_record_find_loop l addr a b fuel → l.getD j 0 < addr)
      ∧ (∀ j, addr_record_find_loop l addr a b fuel ≤ j → j < l.length →
          addr ≤ l.getD j 0) := by
  intro fuel
  induction fuel with
  | zero =>
      intro a b hf hab hbl hlow hhigh
      have hba : b = a := by omega
      subst hba
      exact ⟨le_refl _, le_refl _, hlow,
        fun j h1 h2 => le_of_lt (hhigh j h1 h2)⟩
  | succ fuel ih =>
      intro a b hf hab hbl hlow hhigh
      by_cases hlt : a < b
      · have hired : addr_record_find_loop l addr a b (fuel + 1)
            = (if l.getD ((a + b) / 2) 0 > addr then
                 addr_record_find_loop l addr a ((a + b) / 2) fuel
               else if l.getD ((a + b) / 2) 0 < addr then
                 addr_record_find_loop l addr ((a + b) / 2 + 1) b fuel
               else (a + b) / 2) := by
          simp [addr_record_find_loop, hlt]
        have hia : a ≤ (a + b) / 2 := by omega
        have hib : (a + b) / 2 < b := by omega
        have hil : (a + b) / 2 < l.length := by omega
        by_cases h1 : l.getD ((a + b) / 2) 0 > addr
        · rw [hired, if_pos h1]
          have hhigh2 : ∀ j, (a + b) / 2 ≤ j → j < l.length →
              addr < l.getD j 0 := by
            intro j hj hjl
            rcases Nat.lt_or_ge j b with hb2 | hb2
            · calc addr < l.getD ((a + b) / 2) 0 := h1
                _ ≤ l.getD j 0 := sorted_getD_mono l hs _ j hj hjl
            · exact hhigh j hb2 hjl
          obtain ⟨p1, p2, p3, p4⟩ :=
            ih a ((a + b) / 2) (by omega) hia (by omega) hlow hhigh2
          exact ⟨p1, by omega, p3, p4⟩
        · by_cases h2 : l.getD ((a + b) / 2) 0 < addr
          · rw [hired, if_neg h1, if_pos h2]
            have hlow2 : ∀ j, j < (a + b) / 2 + 1 → l.getD j 0 < addr := by
              intro j hj
              calc l.getD j 0 ≤ l.getD ((a + b) / 2) 0 :=
                    sorted_getD_mono l hs j _ (by omega) hil
                _ < addr := h2
            obtain ⟨p1, p2, p3, p4⟩ :=
              ih ((a + b) / 2 + 1) b (by omega) (by omega) hbl hlow2 hhigh
            exact ⟨by omega, p2, p3, p4⟩
          · have heq : l.getD ((a + b) / 2) 0 = addr := by omega
            rw [hired, if_neg h1, if_neg h2]
            refine ⟨hia, by omega, ?_, ?_⟩
            · intro j hj
              calc l.getD j 0 < l.getD ((a + b) / 2) 0 :=
                    sorted_getD_strict l hs j _ hj hil
                _ = addr := heq
            · intro j hj hjl
              calc addr = l.getD ((a + b) / 2) 0 := heq.symm
                _ ≤ l.getD j 0 := sorted_getD_mono l hs _ j hj hjl
      · have hba : b = a := by omega
        have hired : addr_record_find_loop l addr a b (fuel + 1) = a := by
          simp [addr_record_find_loop, hlt]
        rw [hired]
        subst hba
        exact ⟨le_refl _, le_refl _, hlow,
          fun j h1 h2 => le_of_lt (hhigh j h1 h2)⟩

/-- Postcondition of addr_record_find_addr on a sorted record. -/
theorem addr_record_find_addr_spec (l : List Nat) (addr : Nat)
    (hs : l.Pairwise (· < ·)) :
    addr_record_find_addr ⟨l⟩ addr ≤ l.length
    ∧ (∀ j, j < addr_record_find_addr ⟨l⟩ addr → l.getD j 0 < addr)
    ∧ (∀ j, addr_record_find_addr ⟨l⟩ addr ≤ j → j < l.length →
        addr ≤ l.getD j 0) := by
  obtain ⟨p1, p2, p3, p4⟩ := addr_record_find_loop_spec l addr hs
    l.length 0 l.length (by omega) (by omega) (le_refl _)
    (fun j h => absurd h (Nat.not_lt_zero j))
    (fun j h1 h2 => absurd h2 (by omega))
  exact ⟨p2, p3, p4⟩

/-- On a sorted record, the binary search lands on addr exactly when the
record holds it. -/
theorem addr_record_find_addr_mem (l : List Nat) (addr : Nat)
    (hs : l.Pairwise (· < ·)) :
    addr ∈ l ↔ (addr_record_find_addr ⟨l⟩ addr < l.length
      ∧ l.getD (addr_record_find_addr ⟨l⟩ addr) 0 = addr) := by
  obtain ⟨p1, p2, p3⟩ := addr_record_find_addr_spec l addr hs
  constructor
  · intro hmem
    obtain ⟨k, hk, hget⟩ := List.getElem_of_mem hmem
    have hkd : l.getD k 0 = addr := by
      rw [List.getD_eq_getElem l 0 hk]; exact hget
    have hk1 : addr_record_find_addr ⟨l⟩ addr ≤ k := by
      by_contra h
      have := p2 k (by omega)
      omega
    have hk2 : addr_record_find_addr ⟨l⟩ addr = k := by
      by_contra h
      have hlt : addr_record_find_addr ⟨l⟩ addr < k := by omega
      have := sorted_getD_strict l hs _ k hlt hk
      have := p3 (addr_record_find_addr ⟨l⟩ addr) (le_refl _) (by omega)
      omega
    rw [hk2]
    exact ⟨hk, hkd⟩
  · intro ⟨h1, h2⟩
    rw [List.getD_eq_getElem l 0 h1] at h2
    rw [← h2]
    exact List.getElem_mem h1

/-- Claim C3 supporting fact: membership test of the address record
agrees with list membership on sorted records. -/
theorem addr_record_has_addr_iff (l : List Nat) (addr : Nat)
    (hs : l.Pairwise (· < ·)) :
    addr_record_has_addr ⟨l⟩ addr = true ↔ addr ∈ l := by
  unfold addr_record_has_addr
  by_cases hc : l.length = 0 ∨ addr < l.getD 0 0
      ∨ addr > l.getD (l.length - 1) 0
  · rw [if_pos hc]
    have hnm : addr ∉ l := by
      intro hmem
      rcases (list_mem_iff_getD l addr 0).mp hmem with ⟨k, hk, hget⟩
      rcases hc with h | h | h
      · omega
      · have : l.getD 0 0 ≤ l.getD k 0 :=
          sorted_getD_mono l hs 0 k (by omega) hk
        omega
      · have : l.getD k 0 ≤ l.getD (l.length - 1) 0 :=
          sorted_getD_mono l hs k (l.length - 1) (by omega) (by omega)
        omega
    simp [hnm]
  · rw [if_neg hc]
    simp only [decide_eq_true_eq]
    exact (addr_record_find_addr_mem l addr hs).symm

/-- Claim C3 supporting fact: inserting into a sorted record keeps it
sorted, and the stored set gains exactly the new address. -/
theorem addr_record_add_spec (l : List Nat) (addr : Nat)
    (hs : l.Pairwise (· < ·)) :
    (addr_record_add ⟨l⟩ addr).addrs.Pairwise (· < ·)
    ∧ (∀ x, x ∈ (addr_record_add ⟨l⟩ addr).addrs ↔ x = addr ∨ x ∈ l) := by
  obtain ⟨p1, p2, p3⟩ := addr_record_find_addr_spec l addr hs
  unfold addr_record_add
  by_cases hins : addr_record_find_addr ⟨l⟩ addr ≥ l.length
      ∨ l.getD (addr_record_find_addr ⟨l⟩ addr) 0 ≠ addr
  · have hnm : addr ∉ l := by
      rw [addr_record_find_addr_mem l addr hs]
      intro ⟨h1, h2⟩
      rcases hins with h | h
      · omega
      · exact h h2
    rw [if_pos hins]
    set r := addr_record_find_addr ⟨l⟩ addr with hr
    have htake : ∀ x ∈ l.take r, l.getD (0 : Nat)
        = l.getD 0 → x < addr := by
      intro x hx _
      rcases (list_mem_iff_getD (l.take r) x 0).mp hx with ⟨m, hm, hget⟩
      have hml : m < r := by
        have := List.length_take r l
        omega
      rw [list_getD_take l r m 0 hml] at hget
      have := p2 m hml
      omega
    have htake2 : ∀ x ∈ l.take r, x < addr := fun x hx => htake x hx rfl
    have hdrop2 : ∀ y ∈ l.drop r, addr < y := by
      intro y hy
      rcases (list_mem_iff_getD (l.drop r) y 0).mp hy with ⟨m, hm, hget⟩
      rw [list_getD_drop l r m 0] at hget
      have hrm : r + m < l.length := by
        have := List.length_drop r l
        omega
      have hle : addr ≤ y := by
        have := p3 (r + m) (by omega) hrm
        omega
      have hne : addr ≠ y := by
        intro he
        subst he
        exact hnm ((list_mem_iff_getD l addr 0).mpr ⟨r + m, hrm, hget⟩)
      omega
    constructor
    · rw [List.pairwise_append]
      refine ⟨hs.sublist (List.take_sublist r l), ?_, ?_⟩
      · rw [List.pairwise_cons]
        exact ⟨hdrop2, hs.sublist (List.drop_sublist r l)⟩
      · intro x hx y hy
        have hxa := htake2 x hx
        rcases List.mem_cons.mp hy with h | h
        · omega
        · have := hdrop2 y h
          omega
    · intro x
      constructor
      · intro hx
        rcases List.mem_append.mp hx with h | h
        · exact Or.inr ((List.take_sublist r l).mem h)
        · rcases List.mem_cons.mp h with h | h
          · exact Or.inl h
          · exact Or.inr ((List.drop_sublist r l).mem h)
      · intro hx
        rcases hx with h | h
        · subst h
          exact List.mem_append.mpr (Or.inr (List.mem_cons_self _ _))
        · rcases (list_mem_iff_getD l x 0).mp h with ⟨k, hk, hget⟩
          rcases Nat.lt_or_ge k r with hkr | hkr
          · apply List.mem_append.mpr
            left
            apply (list_mem_iff_getD (l.take r) x 0).mpr
            refine ⟨k, ?_, ?_⟩
            · have := List.length_take r l
              omega
            · rw [list_getD_take l r k 0 hkr]
              exact hget
          · apply List.mem_append.mpr
            right
            apply List.mem_cons_of_mem
            apply (list_mem_iff_getD (l.drop r) x 0).mpr
            refine ⟨k - r, ?_, ?_⟩
            · have := List.length_drop r l
              omega
            · rw [list_getD_drop l r (k - r) 0]
              rw [show r + (k - r) = k by omega]
              exact hget
  · rw [if_neg hins]
    push_neg at hins
    obtain ⟨h1, h2⟩ := hins
    have hmem : addr ∈ l := by
      rw [addr_record_find_addr_mem l addr hs]
      exact ⟨by omega, h2⟩
    refine ⟨hs, fun x => ⟨fun h => Or.inr h, fun h => ?_⟩⟩
    rcases h with h | h
    · subst h
      exact hmem
    · exact h

/-- Folding DIE-offset insertions over a sorted record keeps it sorted,
and the stored set is the union of the old one and the inserted
absolute offsets. -/
theorem die_addrs_fold_spec (cu_offset : Nat) :
    ∀ (offs : List Nat) (l : List Nat), l.Pairwise (· < ·) →
      ((offs.foldl (fun ar d => addr_record_add ar (cu_offset + d))
          ⟨l⟩).addrs.Pairwise (· < ·))
      ∧ (∀ x, x ∈ (offs.foldl
            (fun ar d => addr_record_add ar (cu_offset + d)) ⟨l⟩).addrs
          ↔ x ∈ l ∨ ∃ d ∈ offs, x = cu_offset + d) := by
  intro offs
  induction offs with
  | nil =>
      intro l hl
      exact ⟨hl, fun x => by simp⟩
  | cons d rest ih =>
      intro l hl
      obtain ⟨q1, q2⟩ := addr_record_add_spec l (cu_offset + d) hl
      obtain ⟨r1, r2⟩ := ih ((addr_record_add ⟨l⟩ (cu_offset + d)).addrs) q1
      constructor
      · exact r1
      · intro x
        have hx := r2 x
        rw [List.foldl_cons]
        constructor
        · intro hmem
          rcases hx.mp hmem with h | h
          · rcases (q2 x).mp h with h2 | h2
            · exact Or.inr ⟨d, List.mem_cons_self d rest, h2⟩
            · exact Or.inl h2
          · obtain ⟨d2, hd2, he⟩ := h
            exact Or.inr ⟨d2, List.mem_cons_of_mem d hd2, he⟩
        · intro hmem
          rcases hmem with h | h
          · exact hx.mpr (Or.inl ((q2 x).mpr (Or.inr h)))
          · obtain ⟨d2, hd2, he⟩ := h
            rcases List.mem_cons.mp hd2 with h2 | h2
            · subst h2
              exact hx.mpr (Or.inl ((q2 x).mpr (Or.inl he)))
            · exact hx.mpr (Or.inr ⟨d2, h2, he⟩)

/-- Claim C3: the per-CU address record stays sorted and duplicate-free
through every insertion of the DIE walk; every walked DIE contributes
its absolute section offset cu.offset + die_off to the record, stored
exactly once; and addr_record_has_addr holds exactly for the stored
offsets.  The record semantics makes a repeated insertion of an address
a no-op, so each address is counted once even then; within one CU the
walk offsets are strictly increasing, so each DIE in fact inserts a
fresh address. -/
theorem claim_C3 (cu_offset : Nat) (die_offs : List Nat) :
    (∀ pre post, die_offs = pre ++ post →
        (die_addrs_record cu_offset pre).addrs.Pairwise (· < ·)
        ∧ (die_addrs_record cu_offset pre).addrs.Nodup)
    ∧ (∀ d ∈ die_offs,
        (die_addrs_record cu_offset die_offs).addrs.count (cu_offset + d)
          = 1)
    ∧ (∀ x,
        addr_record_has_addr (die_addrs_record cu_offset die_offs) x = true
          ↔ ∃ d ∈ die_offs, x = cu_offset + d) := by
  have hnil : ([] : List Nat).Pairwise (· < ·) := List.Pairwise.nil
  have hrec := die_addrs_fold_spec cu_offset die_offs [] hnil
  refine ⟨?_, ?_, ?_⟩
  · intro pre post hsplit
    have h := die_addrs_fold_spec cu_offset pre [] hnil
    exact ⟨h.1, h.1.imp fun hlt => Nat.ne_of_lt hlt⟩
  · intro d hd
    have hmem : cu_offset + d ∈ (die_addrs_record cu_offset die_offs).addrs :=
      (hrec.2 (cu_offset + d)).mpr (Or.inr ⟨d, hd, rfl⟩)
    have hnd : (die_addrs_record cu_offset die_offs).addrs.Nodup :=
      hrec.1.imp fun hlt => Nat.ne_of_lt hlt
    exact List.count_eq_one_of_mem hnd hmem
  · intro x
    have hiff := addr_record_has_addr_iff
      (die_addrs_record cu_offset die_offs).addrs x hrec.1
    constructor
    · intro h
      have hm := hiff.mp h
      rcases (hrec.2 x).mp hm with h2 | h2
      · simp at h2
      · exact h2
    · intro h
      exact hiff.mpr ((hrec.2 x).mpr (Or.inr h))

/-- Witness for claim C3 on a concrete CU walk. -/
theorem claim_C3_witness :
    ([11, 21] : List Nat) = [11] ++ [21]
    ∧ ((die_addrs_record 0 [11]).addrs.Pairwise (· < ·)
        ∧ (die_addrs_record 0 [11]).addrs.Nodup)
    ∧ (11 : Nat) ∈ [11, 21]
    ∧ (die_addrs_record 0 [11, 21]).addrs.count (0 + 11) = 1
    ∧ (addr_record_has_addr (die_addrs_record 0 [11, 21]) 11 = true
        ↔ ∃ d ∈ [11, 21], (11 : Nat) = 0 + d) :=
  ⟨rfl, (claim_C3 0 [11, 21]).1 [11] [21] rfl, by decide,
    (claim_C3 0 [11, 21]).2.1 11 (by decide),
    (claim_C3 0 [11, 21]).2.2 11⟩

theorem nat_land_eq_left_iff (a b : Nat) :
    a &&& b = a ↔ ∀ j, a.testBit j = true → b.testBit j = true := by
  constructor
  · intro h j hj
    have := congrArg (fun n => n.testBit j) h
    simp only [Nat.testBit_and] at this
    rw [hj] at this
    simpa using this
  · intro h
    apply Nat.eq_of_testBit_eq
    intro j
    simp only [Nat.testBit_and]
    by_cases hj : a.testBit j = true
    · simp [hj, h j hj]
    · simp at hj
      simp [hj]

theorem nat_land_eq_zero_iff (a b : Nat) :
    a &&& b = 0 ↔ ∀ j, ¬ (a.testBit j = true ∧ b.testBit j = true) := by
  constructor
  · intro h j ⟨h1, h2⟩
    have := congrArg (fun n => n.testBit j) h
    simp only [Nat.testBit_and] at this
    rw [h1, h2] at this
    simpa using this
  · intro h
    apply Nat.eq_of_testBit_eq
    intro j
    simp only [Nat.testBit_and, Nat.zero_testBit]
    by_cases h1 : a.testBit j = true
    · by_cases h2 : b.testBit j = true
      · exact absurd ⟨h1, h2⟩ (h j)
      · simp at h2
        simp [h2]
    · simp at h1
      simp [h1]

theorem term_matches_pos_literal (i c : Nat) :
    term_matches ⟨1 <<< i, mc_none⟩ c = c.testBit i := by
  unfold term_matches mc_none
  rw [Nat.shiftLeft_eq, Nat.one_mul]
  by_cases h : c.testBit i = true
  · have h1 : 2 ^ i &&& c = 2 ^ i := by
      rw [nat_land_eq_left_iff]
      intro j hj
      have hij : j = i := by
        by_contra hne
        rw [Nat.testBit_two_pow_of_ne (fun he => hne he.symm)] at hj
        exact absurd hj (by simp)
      subst hij
      exact h
    simp [h1, h]
  · have h1 : ¬ (2 ^ i &&& c = 2 ^ i) := by
      intro hcontra
      exact h ((nat_land_eq_left_iff _ _).mp hcontra i
        Nat.testBit_two_pow_self)
    have hb : (2 ^ i &&& c == 2 ^ i) = false := by
      rw [beq_eq_false_iff_ne]
      exact h1
    have hcF : c.testBit i = false := by simpa using h
    simp [hb, hcF]

theorem term_matches_neg_literal (i c : Nat) :
    term_matches ⟨mc_none, 1 <<< i⟩ c = !c.testBit i := by
  unfold term_matches mc_none
  rw [Nat.shiftLeft_eq, Nat.one_mul]
  by_cases h : c.testBit i = true
  · have h1 : ¬ (2 ^ i &&& c = 0) := by
      intro hcontra
      exact (nat_land_eq_zero_iff _ _).mp hcontra i
        ⟨Nat.testBit_two_pow_self, h⟩
    have hb : (2 ^ i &&& c == 0) = false := by
      rw [beq_eq_false_iff_ne]
      exact h1
    simp [h, hb]
  · have h1 : 2 ^ i &&& c = 0 := by
      rw [nat_land_eq_zero_iff]
      intro j ⟨hj1, hj2⟩
      have hij : j = i := by
        by_contra hne
        rw [Nat.testBit_two_pow_of_ne (fun he => hne he.symm)] at hj1
        exact absurd hj1 (by simp)
      subst hij
      exact h hj2
    simp at h
    simp [h, h1]

/-- Membership in the criterion built by message_cri_neg. -/
theorem mem_message_cri_neg (t : message_term)
    (hdisj : t.positive &&& t.negative = 0) (u : message_term) :
    u ∈ message_cri_neg t ↔ ∃ i, i < mc_max_id
      ∧ ((t.positive.testBit i = true ∧ u = ⟨1 <<< i, mc_none⟩)
        ∨ (t.negative.testBit i = true ∧ u = ⟨mc_none, 1 <<< i⟩)) := by
  unfold message_cri_neg
  rw [List.mem_filterMap]
  constructor
  · intro ⟨i, hi, hfn⟩
    have hir : i < mc_max_id := List.mem_range.mp hi
    by_cases h1 : t.positive.testBit i = true
    · rw [if_pos h1] at hfn
      exact ⟨i, hir, Or.inl ⟨h1, (Option.some_inj.mp hfn).symm⟩⟩
    · rw [if_neg h1] at hfn
      by_cases h2 : t.negative.testBit i = true
      · rw [if_pos h2] at hfn
        exact ⟨i, hir, Or.inr ⟨h2, (Option.some_inj.mp hfn).symm⟩⟩
      · rw [if_neg h2] at hfn
        exact absurd hfn (by simp)
  · intro ⟨i, hir, hcase⟩
    refine ⟨i, List.mem_range.mpr hir, ?_⟩
    rcases hcase with ⟨hbit, hu⟩ | ⟨hbit, hu⟩
    · rw [if_pos hbit, hu]
    · have hnp : ¬ t.positive.testBit i = true := by
        intro hp
        exact (nat_land_eq_zero_iff t.positive t.negative).mp hdisj i
          ⟨hp, hbit⟩
      rw [if_neg hnp, if_pos hbit, hu]

/-- Claim C5 counterexample: negating the single-positive-literal term
on category impact_1 produces a criterion that accepts impact_1 even
though the term itself matches impact_1 (the code keeps the literal
positive instead of negating it), and negating the single-literal term
on the highest-numbered category yields the empty criterion, so that
category is not covered at all. -/
theorem claim_C5_counterexample :
    message_accept (message_cri_neg ⟨mc_impact_1, mc_none⟩) mc_impact_1 = true
    ∧ term_matches ⟨mc_impact_1, mc_none⟩ mc_impact_1 = true
    ∧ message_cri_neg ⟨mc_error, mc_none⟩ = [] := by
  refine ⟨by decide, by decide, by decide⟩

/-- Claim C5, amended: for a term with disjoint positive and negative
masks whose bits all lie strictly below the highest-numbered category,
message_cri_neg yields exactly one single-literal term per bit below
the highest ID, keeping each literal polarity (positive literal for
positive bits, negated literal for negative bits), and the resulting
criterion accepts a category c iff the reflected term
(negative, positive) does not match c.  Bits at the highest-numbered
category are not covered. -/
theorem claim_C5_amended (t : message_term)
    (hdisj : t.positive &&& t.negative = 0)
    (hpos : t.positive < 2 ^ mc_max_id)
    (hneg : t.negative < 2 ^ mc_max_id) :
    C5_post t := by
  have hhigh : ∀ (n j : Nat), n < 2 ^ mc_max_id → mc_max_id ≤ j →
      n.testBit j = false := by
    intro n j hn hj
    apply Nat.testBit_eq_false_of_lt
    calc n < 2 ^ mc_max_id := hn
      _ ≤ 2 ^ j := Nat.pow_le_pow_right (by omega) hj
  refine ⟨?_, ?_, ?_, ?_⟩
  · intro i hi hbit
    exact (mem_message_cri_neg t hdisj _).mpr ⟨i, hi, Or.inl ⟨hbit, rfl⟩⟩
  · intro i hi hbit
    exact (mem_message_cri_neg t hdisj _).mpr ⟨i, hi, Or.inr ⟨hbit, rfl⟩⟩
  · intro u hu
    exact (mem_message_cri_neg t hdisj u).mp hu
  · intro c
    by_cases hm : term_matches ⟨t.negative, t.positive⟩ c = true
    · rw [hm]
      simp only [Bool.not_true]
      unfold term_matches at hm
      rw [Bool.and_eq_true, beq_iff_eq, beq_iff_eq] at hm
      obtain ⟨hm1, hm2⟩ := hm
      simp only at hm1 hm2
      rw [show ∀ b : Bool, (b = false) = (¬ b = true) from fun b => by simp]
      unfold message_accept
      rw [List.any_eq_true]
      intro ⟨u, humem, humatch⟩
      rcases (mem_message_cri_neg t hdisj u).mp humem with
        ⟨i, hi, ⟨hbit, hu⟩ | ⟨hbit, hu⟩⟩
      · subst hu
        rw [term_matches_pos_literal] at humatch
        exact (nat_land_eq_zero_iff t.positive c).mp hm2 i ⟨hbit, humatch⟩
      · subst hu
        rw [term_matches_neg_literal] at humatch
        have := (nat_land_eq_left_iff t.negative c).mp hm1 i hbit
        rw [this] at humatch
        exact absurd humatch (by simp)
    · rw [Bool.not_eq_true] at hm
      rw [hm]
      simp only [Bool.not_false]
      unfold term_matches at hm
      rw [Bool.and_eq_false_iff] at hm
      unfold message_accept
      rw [List.any_eq_true]
      rcases hm with hm | hm
      · -- some bit of negative is missing from c
        simp only [beq_eq_false_iff_ne, ne_eq] at hm
        have : ∃ j, t.negative.testBit j = true ∧ c.testBit j = false := by
          by_contra hall
          push_neg at hall
          apply hm
          rw [nat_land_eq_left_iff]
          intro j hj
          have hne := hall j hj
          cases hcb : c.testBit j
          · exact absurd hcb hne
          · rfl
        obtain ⟨j, hj1, hj2⟩ := this
        have hjlt : j < mc_max_id := by
          by_contra hge
          have := hhigh t.negative j hneg (by omega)
          rw [this] at hj1
          exact absurd hj1 (by simp)
        refine ⟨⟨mc_none, 1 <<< j⟩,
          (mem_message_cri_neg t hdisj _).mpr ⟨j, hjlt, Or.inr ⟨hj1, rfl⟩⟩, ?_⟩
        rw [term_matches_neg_literal, hj2]
        rfl
      · -- some bit of positive is present in c
        simp only [beq_eq_false_iff_ne, ne_eq] at hm
        have : ∃ j, t.positive.testBit j = true ∧ c.testBit j = true := by
          by_contra hall
          push_neg at hall
          apply hm
          rw [nat_land_eq_zero_iff]
          intro j ⟨hj1, hj2⟩
          exact absurd hj2 (by simpa using hall j hj1)
        obtain ⟨j, hj1, hj2⟩ := this
        have hjlt : j < mc_max_id := by
          by_contra hge
          have := hhigh t.positive j hpos (by omega)
          rw [this] at hj1
          exact absurd hj1 (by simp)
        refine ⟨⟨1 <<< j, mc_none⟩,
          (mem_message_cri_neg t hdisj _).mpr ⟨j, hjlt, Or.inl ⟨hj1, rfl⟩⟩, ?_⟩
        rw [term_matches_pos_literal, hj2]

/-- Witness for the amended claim C5 at a concrete term. -/
theorem claim_C5_witness :
    ((mc_impact_1 : Nat) &&& mc_loc = 0
      ∧ (mc_impact_1 : Nat) < 2 ^ mc_max_id
      ∧ (mc_loc : Nat) < 2 ^ mc_max_id)
    ∧ C5_post ⟨mc_impact_1, mc_loc⟩ :=
  ⟨⟨by decide, by decide, by decide⟩,
    claim_C5_amended ⟨mc_impact_1, mc_loc⟩ (by decide) (by decide)
      (by decide)⟩

/-- The cross-CU scan emits at most one diagnostic. -/
theorem info_scan_loop_len :
    ∀ (chain : List cu_rec) (asz off : Nat),
      (info_address_size_scan_loop chain asz off).length ≤ 1 := by
  intro chain
  induction chain with
  | nil => intro asz off; simp [info_address_size_scan_loop]
  | cons it rest ih =>
      intro asz off
      unfold info_address_size_scan_loop
      by_cases h0 : asz = 0
      · rw [if_pos h0]; exact ih _ _
      · rw [if_neg h0]
        by_cases hne : asz ≠ it.address_size
        · rw [if_pos hne]; simp
        · rw [if_neg hne]; exact ih _ _

/-- With a nonzero reference size, the scan loop is silent exactly when
every remaining CU has the reference size. -/
theorem info_scan_loop_nil_iff :
    ∀ (chain : List cu_rec) (asz off : Nat), asz ≠ 0 →
      (info_address_size_scan_loop chain asz off = [] ↔
        ∀ cu ∈ chain, cu.address_size = asz) := by
  intro chain
  induction chain with
  | nil => intro asz off h; simp [info_address_size_scan_loop]
  | cons it rest ih =>
      intro asz off h
      unfold info_address_size_scan_loop
      rw [if_neg h]
      by_cases hne : asz ≠ it.address_size
      · rw [if_pos hne]
        constructor
        · intro hcontra; exact absurd hcontra (by simp)
        · intro hall
          exact absurd (hall it (List.mem_cons_self it rest)).symm hne
      · rw [if_neg hne]
        push_neg at hne
        rw [ih asz off h]
        constructor
        · intro hall cu hcu
          rcases List.mem_cons.mp hcu with hc | hc
          · subst hc; exact hne.symm
          · exact hall cu hc
        · intro hall cu hcu
          exact hall cu (List.mem_cons_of_mem it hcu)

/-- Claim C7 counterexample: two CUs with the individually valid address
sizes 4 and 8 draw exactly one mismatch diagnostic, and that diagnostic
(category mc_info) is printed at severity warning under the default
criteria, not as an error as the claim states. -/
theorem claim_C7_counterexample :
    info_address_size_scan [⟨0, 4⟩, ⟨11, 8⟩]
      = [CuDiag.addressSizeMismatch 11 0]
    ∧ wr_message default_warning_criteria default_error_criteria mc_info
      = [Severity.warning]
    ∧ Severity.warning ≠ Severity.error := by
  refine ⟨by decide, by decide, by decide⟩

/-- Claim C7, amended: a mismatch between individually valid CU address
sizes is reported exactly once per section, as an accepted mc_info
diagnostic printed at severity warning (under every flag configuration,
since the error criteria never accept mc_info), not as a fatal
condition: the scan only reads the already built CU chain.  Only an
address size other than 4 or 8 makes check_cu_structural abort the
CU. -/
theorem claim_C7_amended (chain : List cu_rec)
    (hvalid : ∀ cu ∈ chain, cu.address_size = 4 ∨ cu.address_size = 8) :
    C7_post chain := by
  refine ⟨info_scan_loop_len chain 0 0, ?_, ?_, ?_, ?_⟩
  · unfold info_address_size_scan
    cases chain with
    | nil => simp [info_address_size_scan_loop]
    | cons c rest =>
        unfold info_address_size_scan_loop
        rw [if_pos rfl]
        have hc0 : c.address_size ≠ 0 := by
          rcases hvalid c (List.mem_cons_self c rest) with h | h <;> omega
        rw [info_scan_loop_nil_iff rest c.address_size c.offset hc0]
        constructor
        · intro hall cu1 h1 cu2 h2
          have hv : ∀ cu ∈ c :: rest, cu.address_size = c.address_size := by
            intro cu hcu
            rcases List.mem_cons.mp hcu with hc | hc
            · subst hc; rfl
            · exact hall cu hc
          rw [hv cu1 h1, hv cu2 h2]
        · intro hall cu hcu
          exact hall cu (List.mem_cons_of_mem c hcu) c
            (List.mem_cons_self c rest)
  · intro tnd gnu strict tol
    cases tnd <;> cases gnu <;> cases strict <;> cases tol <;> decide
  · intro n
    unfold check_cu_address_size
    by_cases h : n ≠ 4 ∧ n ≠ 8
    · rw [if_pos h]
      constructor
      · intro hc; exact absurd hc (by simp)
      · intro hc; omega
    · rw [if_neg h]
      push_neg at h
      constructor
      · intro _
        by_cases h4 : n = 4
        · exact Or.inl h4
        · exact Or.inr (h h4)
      · intro _; rfl
  · intro n
    unfold check_cu_address_size
    by_cases h : n ≠ 4 ∧ n ≠ 8
    · rw [if_pos h]
      constructor
      · intro _; omega
      · intro _; rfl
    · rw [if_neg h]
      push_neg at h
      constructor
      · intro hc; exact absurd hc (by simp)
      · intro hc
        by_cases h4 : n = 4
        · exact absurd (Or.inl h4) hc
        · exact absurd (Or.inr (h h4)) hc

/-- Witness for the amended claim C7 on a concrete mixed-size chain. -/
theorem claim_C7_witness :
    (∀ cu ∈ ([⟨0, 4⟩, ⟨11, 8⟩] : List cu_rec),
        cu.address_size = 4 ∨ cu.address_size = 8)
    ∧ C7_post [⟨0, 4⟩, ⟨11, 8⟩] :=
  ⟨by decide, claim_C7_amended [⟨0, 4⟩, ⟨11, 8⟩] (by decide)⟩

theorem list_getD_map (l : List abbrev_rec) (i : Nat) (hi : i < l.length) :
    (l.map (fun a => a.code)).getD i 0 = (l.getD i dummy_abbrev).code := by
  have him : i < (l.map (fun a => a.code)).length := by simpa using hi
  rw [List.getD_eq_getElem _ _ him, List.getD_eq_getElem _ _ hi,
    List.getElem_map]

/-- Characterization of the binary-search loop of
abbrev_table_find_abbrev on a table with strictly increasing codes. -/
theorem abbrev_find_loop_spec (tbl : List abbrev_rec) (c : Nat)
    (hs : (tbl.map (fun a => a.code)).Pairwise (· < ·)) :
    ∀ (fuel a b : Nat), b - a ≤ fuel → a ≤ b → b ≤ tbl.length →
      (∀ j, j < a → (tbl.getD j dummy_abbrev).code < c) →
      (∀ j, b ≤ j → j < tbl.length → c < (tbl.getD j dummy_abbrev).code) →
      (∀ x, abbrev_table_find_loop tbl c a b fuel = some x →
        ∃ i, i < tbl.length ∧ tbl.getD i dummy_abbrev = x ∧ x.code = c)
      ∧ (abbrev_table_find_loop tbl c a b fuel = none →
        ∀ i, i < tbl.length → (tbl.getD i dummy_abbrev).code ≠ c) := by
  have hmono : ∀ i j, i ≤ j → j < tbl.length →
      (tbl.getD i dummy_abbrev).code ≤ (tbl.getD j dummy_abbrev).code := by
    intro i j hij hj
    have hi : i < tbl.length := by omega
    have := sorted_getD_mono (tbl.map (fun a => a.code)) hs i j hij
      (by simpa using hj)
    rwa [list_getD_map tbl i hi, list_getD_map tbl j hj] at this
  have hstrict : ∀ i j, i < j → j < tbl.length →
      (tbl.getD i dummy_abbrev).code < (tbl.getD j dummy_abbrev).code := by
    intro i j hij hj
    have hi : i < tbl.length := by omega
    have := sorted_getD_strict (tbl.map (fun a => a.code)) hs i j hij
      (by simpa using hj)
    rwa [list_getD_map tbl i hi, list_getD_map tbl j hj] at this
  intro fuel
  induction fuel with
  | zero =>
      intro a b hf hab hbl hlow hhigh
      refine ⟨?_, ?_⟩
      · intro x hx
        simp [abbrev_table_find_loop] at hx
      · intro _ i hi
        have hba : b = a := by omega
        rcases Nat.lt_or_ge i a with h | h
        · exact Nat.ne_of_lt (hlow i h)
        · exact Nat.ne_of_gt (hhigh i (by omega) hi)
  | succ fuel ih =>
      intro a b hf hab hbl hlow hhigh
      by_cases hlt : a < b
      · have hia : a ≤ (a + b) / 2 := by omega
        have hib : (a + b) / 2 < b := by omega
        have hil : (a + b) / 2 < tbl.length := by omega
        have hired : abbrev_table_find_loop tbl c a b (fuel + 1)
            = (if (tbl.getD ((a + b) / 2) dummy_abbrev).code > c then
                 abbrev_table_find_loop tbl c a ((a + b) / 2) fuel
               else if (tbl.getD ((a + b) / 2) dummy_abbrev).code < c then
                 abbrev_table_find_loop tbl c ((a + b) / 2 + 1) b fuel
               else some (tbl.getD ((a + b) / 2) dummy_abbrev)) := by
          simp [abbrev_table_find_loop, hlt]
        by_cases h1 : (tbl.getD ((a + b) / 2) dummy_abbrev).code > c
        · rw [hired, if_pos h1]
          have hhigh2 : ∀ j, (a + b) / 2 ≤ j → j < tbl.length →
              c < (tbl.getD j dummy_abbrev).code := by
            intro j hj hjl
            calc c < (tbl.getD ((a + b) / 2) dummy_abbrev).code := h1
              _ ≤ (tbl.getD j dummy_abbrev).code := hmono _ j hj hjl
          exact ih a ((a + b) / 2) (by omega) hia (by omega) hlow hhigh2
        · by_cases h2 : (tbl.getD ((a + b) / 2) dummy_abbrev).code < c
          · rw [hired, if_neg h1, if_pos h2]
            have hlow2 : ∀ j, j < (a + b) / 2 + 1 →
                (tbl.getD j dummy_abbrev).code < c := by
              intro j hj
              calc (tbl.getD j dummy_abbrev).code
                  ≤ (tbl.getD ((a + b) / 2) dummy_abbrev).code :=
                    hmono j _ (by omega) hil
                _ < c := h2
            exact ih ((a + b) / 2 + 1) b (by omega) (by omega) hbl hlow2 hhigh
          · have heq : (tbl.getD ((a + b) / 2) dummy_abbrev).code = c := by
              omega
            rw [hired, if_neg h1, if_neg h2]
            refine ⟨?_, ?_⟩
            · intro x hx
              have hxe := Option.some_inj.mp hx
              exact ⟨(a + b) / 2, hil, hxe, hxe ▸ heq⟩
            · intro hcontra
              simp at hcontra
      · have hired : abbrev_table_find_loop tbl c a b (fuel + 1) = none := by
          simp [abbrev_table_find_loop, hlt]
        rw [hired]
        refine ⟨fun x hx => by simp at hx, ?_⟩
        intro _ i hi
        have hba : b = a := by omega
        rcases Nat.lt_or_ge i a with h | h
        · exact Nat.ne_of_lt (hlow i h)
        · exact Nat.ne_of_gt (hhigh i (by omega) hi)

/-- On a table with strictly increasing codes, the binary lookup agrees
with the linear first-match lookup. -/
theorem abbrev_find_eq_linear (tbl : List abbrev_rec) (c : Nat)
    (hs : (tbl.map (fun a => a.code)).Pairwise (· < ·)) :
    abbrev_table_find_abbrev tbl c
      = tbl.find? (fun x => x.code == c) := by
  obtain ⟨hsome, hnone⟩ := abbrev_find_loop_spec tbl c hs tbl.length 0
    tbl.length (by omega) (by omega) (le_refl _)
    (fun j h => absurd h (Nat.not_lt_zero j))
    (fun j h1 h2 => absurd h2 (by omega))
  rcases hres : abbrev_table_find_abbrev tbl c with _ | x
  · rcases hfind : tbl.find? (fun x => x.code == c) with _ | y
    · exact hfind.symm
    · have hy : y ∈ tbl ∧ y.code = c := by
        have h1 := List.find?_some hfind
        have h2 := List.mem_of_find?_eq_some hfind
        exact ⟨h2, by simpa using h1⟩
      obtain ⟨k, hk, hget⟩ := List.getElem_of_mem hy.1
      have hgd : (tbl.getD k dummy_abbrev).code = c := by
        rw [List.getD_eq_getElem _ _ hk, hget]
        exact hy.2
      exact absurd hgd (hnone hres k hk)
  · obtain ⟨i, hi, hgd, hcode⟩ := hsome x hres
    have hxmem : x ∈ tbl := by
      rw [← hgd, List.getD_eq_getElem _ _ hi]
      exact List.getElem_mem hi
    rcases hfind : tbl.find? (fun x => x.code == c) with _ | y
    · have := List.find?_eq_none.mp hfind x hxmem
      simp [hcode] at this
    · have hy : y ∈ tbl ∧ y.code = c := by
        have h1 := List.find?_some hfind
        have h2 := List.mem_of_find?_eq_some hfind
        exact ⟨h2, by simpa using h1⟩
      obtain ⟨j, hj, hgetj⟩ := List.getElem_of_mem hy.1
      have hij : i = j := by
        by_contra hne
        rcases Nat.lt_or_ge i j with h | h
        · have := sorted_getD_strict (tbl.map (fun a => a.code)) hs i j h
            (by simpa using hj)
          rw [list_getD_map tbl i hi, list_getD_map tbl j hj] at this
          rw [hgd, hcode] at this
          have : c < (tbl.getD j dummy_abbrev).code := this
          rw [List.getD_eq_getElem _ _ hj, hgetj] at this
          omega
        · have hji : j < i := by omega
          have := sorted_getD_strict (tbl.map (fun a => a.code)) hs j i hji
            (by simpa using hi)
          rw [list_getD_map tbl j hj, list_getD_map tbl i hi] at this
          rw [hgd, hcode] at this
          have h2 : (tbl.getD j dummy_abbrev).code < c := this
          rw [List.getD_eq_getElem _ _ hj, hgetj] at h2
          omega
      subst hij
      rw [List.getD_eq_getElem _ _ hi] at hgd
      have hxy : x = y := by
        rw [← hgd]
        exact hgetj
      rw [hxy]
      exact hfind.symm

/-- The comparator orders strictly increasing small codes weakly. -/
theorem cmp_abbrs_le_of_le (a b : abbrev_rec) (hab : a.code ≤ b.code)
    (hb : b.code < 2 ^ 31) : cmp_abbrs a b ≤ 0 := by
  unfold cmp_abbrs
  have ha64 : a.code % 2 ^ 64 = a.code := Nat.mod_eq_of_lt (by omega)
  have hb64 : b.code % 2 ^ 64 = b.code := Nat.mod_eq_of_lt (by omega)
  rw [ha64, hb64]
  rcases Nat.eq_or_lt_of_le hab with heq | hlt
  · rw [heq]
    have hd : (b.code + 2 ^ 64 - b.code) % 2 ^ 64 = 0 := by omega
    rw [hd]
    simp
  · have hd : (a.code + 2 ^ 64 - b.code) % 2 ^ 64
        = 2 ^ 64 - (b.code - a.code) := by omega
    rw [hd]
    show (if (2 ^ 64 - (b.code - a.code)) % 2 ^ 32 < 2 ^ 31
        then (((2 ^ 64 - (b.code - a.code)) % 2 ^ 32 : Nat) : Int)
        else (((2 ^ 64 - (b.code - a.code)) % 2 ^ 32 : Nat) : Int) - 2 ^ 32)
      ≤ 0
    have hlow : (2 ^ 64 - (b.code - a.code)) % 2 ^ 32
        = 2 ^ 32 - (b.code - a.code) := by omega
    rw [hlow]
    have hge : ¬ (2 ^ 32 - (b.code - a.code) < 2 ^ 31) := by omega
    rw [if_neg hge]
    have hle : (2 ^ 32 - (b.code - a.code) : Nat) ≤ 2 ^ 32 := by omega
    have hcast : ((2 ^ 32 - (b.code - a.code) : Nat) : Int)
        ≤ ((2 ^ 32 : Nat) : Int) := by
      exact_mod_cast hle
    omega

/-- Sorting a table that is already ordered by the comparator leaves it
unchanged. -/
theorem abbrev_table_sort_of_sorted (tbl : List abbrev_rec)
    (h : tbl.Pairwise (fun a b => cmp_abbrs a b ≤ 0)) :
    abbrev_table_sort tbl = tbl := by
  induction tbl with
  | nil => rfl
  | cons x rest ih =>
      have hx : ∀ y ∈ rest, cmp_abbrs x y ≤ 0 := (List.pairwise_cons.mp h).1
      have ht : rest.Pairwise (fun a b => cmp_abbrs a b ≤ 0) :=
        (List.pairwise_cons.mp h).2
      have hrec : abbrev_table_sort (x :: rest)
          = insert_by_code x (abbrev_table_sort rest) := rfl
      rw [hrec, ih ht]
      cases rest with
      | nil => rfl
      | cons y t =>
          unfold insert_by_code
          rw [if_pos (hx y (List.mem_cons_self y t))]

/-- Loading abbreviations whose codes arrive in nondecreasing order
keeps the stored table strictly sorted, makes the binary-search
duplicate check behave like the linear first-occurrence lookup, and
stores exactly the distinct codes. -/
theorem abbrev_load_fold_spec :
    ∀ (entries tbl : List abbrev_rec) (ds : List AbbrevDiag),
      ((tbl.map (fun a => a.code)).Pairwise (· < ·)) →
      (∀ e ∈ entries, ∀ x ∈ tbl, x.code ≤ e.code) →
      ((entries.map (fun a => a.code)).Pairwise (· ≤ ·)) →
      entries.foldl abbrev_load_step (tbl, ds)
        = entries.foldl abbrev_load_linear_step (tbl, ds)
      ∧ (((entries.foldl abbrev_load_step (tbl, ds)).1.map
            (fun a => a.code)).Pairwise (· < ·))
      ∧ (∀ c, c ∈ ((entries.foldl abbrev_load_step (tbl, ds)).1.map
            (fun a => a.code))
          ↔ c ∈ tbl.map (fun a => a.code)
            ∨ c ∈ entries.map (fun a => a.code)) := by
  intro entries
  induction entries with
  | nil =>
      intro tbl ds htbl hall hsorted
      exact ⟨rfl, htbl, fun c => by simp⟩
  | cons e rest ih =>
      intro tbl ds htbl hall hsorted
      have hfind : abbrev_table_find_abbrev tbl e.code
          = tbl.find? (fun x => x.code == e.code) :=
        abbrev_find_eq_linear tbl e.code htbl
      have hs2 : (∀ a ∈ rest, e.code ≤ a.code)
          ∧ (rest.map (fun a => a.code)).Pairwise (· ≤ ·) := by
        simpa using hsorted
      have hsortedtail : (rest.map (fun a => a.code)).Pairwise (· ≤ ·) :=
        hs2.2
      have hheadle : ∀ e2 ∈ rest, e.code ≤ e2.code := fun e2 he2 =>
        hs2.1 e2 he2
      rcases hres : tbl.find? (fun x => x.code == e.code) with _ | orig
      · -- the code is new: it is appended to the table
        have hstep : abbrev_load_step (tbl, ds) e = (tbl ++ [e], ds) := by
          unfold abbrev_load_step
          rw [hfind, hres]
        have hnotin : ∀ x ∈ tbl, x.code ≠ e.code := by
          intro x hx
          have := List.find?_eq_none.mp hres x hx
          simpa using this
        have htbl2 : ((tbl ++ [e]).map (fun a => a.code)).Pairwise
            (· < ·) := by
          rw [List.map_append, List.pairwise_append]
          refine ⟨htbl, by simp, ?_⟩
          intro c1 hc1 c2 hc2
          obtain ⟨x, hx, hxc⟩ := List.mem_map.mp hc1
          have hc2e : c2 = e.code := by simpa using hc2
          subst hc2e
          rw [← hxc]
          have hle := hall e (List.mem_cons_self e rest) x hx
          have hne := hnotin x hx
          omega
        have hall2 : ∀ e2 ∈ rest, ∀ x ∈ tbl ++ [e], x.code ≤ e2.code := by
          intro e2 he2 x hx
          rcases List.mem_append.mp hx with h | h
          · exact hall e2 (List.mem_cons_of_mem e he2) x h
          · have : x = e := by simpa using h
            subst this
            exact hheadle e2 he2
        obtain ⟨q1, q2, q3⟩ := ih (tbl ++ [e]) ds htbl2 hall2 hsortedtail
        refine ⟨?_, ?_, ?_⟩
        · rw [List.foldl_cons, List.foldl_cons, hstep]
          have hsteplin : abbrev_load_linear_step (tbl, ds) e
              = (tbl ++ [e], ds) := by
            unfold abbrev_load_linear_step
            rw [hres]
          rw [hsteplin]
          exact q1
        · rw [List.foldl_cons, hstep]
          exact q2
        · intro c
          rw [List.foldl_cons, hstep]
          rw [q3 c]
          rw [List.map_cons, List.map_append]
          constructor
          · intro hc
            rcases hc with h | h
            · rcases List.mem_append.mp h with h2 | h2
              · exact Or.inl h2
              · have : c = e.code := by simpa using h2
                subst this
                exact Or.inr (List.mem_cons_self _ _)
            · exact Or.inr (List.mem_cons_of_mem _ h)
          · intro hc
            rcases hc with h | h
            · exact Or.inl (List.mem_append.mpr (Or.inl h))
            · rcases List.mem_cons.mp h with h2 | h2
              · subst h2
                exact Or.inl (List.mem_append.mpr (Or.inr (by simp)))
              · exact Or.inr h2
      · -- duplicate code: one error, the newcomer is dropped
        have hstep : abbrev_load_step (tbl, ds) e
            = (tbl, ds ++ [.duplicate e.code e.site orig.site]) := by
          unfold abbrev_load_step
          rw [hfind, hres]
        have horig : orig ∈ tbl ∧ orig.code = e.code := by
          have h1 := List.find?_some hres
          have h2 := List.mem_of_find?_eq_some hres
          exact ⟨h2, by simpa using h1⟩
        have hall2 : ∀ e2 ∈ rest, ∀ x ∈ tbl, x.code ≤ e2.code :=
          fun e2 he2 x hx => hall e2 (List.mem_cons_of_mem e he2) x hx
        obtain ⟨q1, q2, q3⟩ := ih tbl
          (ds ++ [.duplicate e.code e.site orig.site]) htbl hall2 hsortedtail
        refine ⟨?_, ?_, ?_⟩
        · rw [List.foldl_cons, List.foldl_cons, hstep]
          have hsteplin : abbrev_load_linear_step (tbl, ds) e
              = (tbl, ds ++ [.duplicate e.code e.site orig.site]) := by
            unfold abbrev_load_linear_step
            rw [hres]
          rw [hsteplin]
          exact q1
        · rw [List.foldl_cons, hstep]
          exact q2
        · intro c
          rw [List.foldl_cons, hstep]
          rw [q3 c]
          rw [List.map_cons]
          constructor
          · intro hc
            rcases hc with h | h
            · exact Or.inl h
            · exact Or.inr (List.mem_cons_of_mem _ h)
          · intro hc
            rcases hc with h | h
            · exact Or.inl h
            · rcases List.mem_cons.mp h with h2 | h2
              · left
                subst h2
                rw [← horig.2]
                exact List.mem_map_of_mem _ horig.1
              · exact Or.inr h2

/-- Claim C6 counterexample: a table whose codes arrive in the order
1, 3, 2, 2 holds a duplicate code 2, yet the load emits no duplicate
error and stores the second code 2 as well (the duplicate check runs a
binary search over the insertion-ordered, not yet sorted, array and
misses the earlier code 2), so the final table keeps four entries with
codes 1, 2, 2, 3. -/
theorem claim_C6_counterexample :
    (abbrev_table_load [⟨1, 0⟩, ⟨3, 2⟩, ⟨2, 4⟩, ⟨2, 6⟩]).2 = []
    ∧ (abbrev_table_load [⟨1, 0⟩, ⟨3, 2⟩, ⟨2, 4⟩, ⟨2, 6⟩]).1.map
        (fun a => a.code) = [1, 2, 2, 3] := by
  refine ⟨by decide, by decide⟩

/-- Claim C6, amended: when the codes of one abbreviation table appear
in nondecreasing order in the section (and fit the int comparator,
below 2 to the 31st), an abbreviation whose code equals one already in
the table draws exactly one error citing the first definition site and
is not stored (the load behaves like the linear first-occurrence
lookup), after loading the table is sorted ascending by code, and the
binary lookup finds an abbreviation iff its code is among the decoded
codes. -/
theorem claim_C6_amended (entries : List abbrev_rec)
    (hsorted : (entries.map (fun a => a.code)).Pairwise (· ≤ ·))
    (hsmall : ∀ e ∈ entries, e.code < 2 ^ 31) :
    C6_post entries := by
  obtain ⟨heq, hsort, hmem⟩ := abbrev_load_fold_spec entries [] []
    (by simp) (by simp [List.not_mem_nil]) hsorted
  have hcodes : ∀ x ∈ (entries.foldl abbrev_load_step ([], [])).1,
      x.code < 2 ^ 31 := by
    intro x hx
    have hxc : x.code ∈ (entries.foldl abbrev_load_step ([], [])).1.map
        (fun a => a.code) := List.mem_map_of_mem _ hx
    rcases (hmem x.code).mp hxc with h | h
    · simp at h
    · obtain ⟨e2, he2, hec⟩ := List.mem_map.mp h
      rw [← hec]
      exact hsmall e2 he2
  have hsortid : abbrev_table_sort
      (entries.foldl abbrev_load_step ([], [])).1
      = (entries.foldl abbrev_load_step ([], [])).1 := by
    apply abbrev_table_sort_of_sorted
    have hpw : (entries.foldl abbrev_load_step ([], [])).1.Pairwise
        (fun a b => a.code < b.code) := List.pairwise_map.mp hsort
    exact hpw.imp_of_mem fun ha hb hr =>
      cmp_abbrs_le_of_le _ _ (le_of_lt hr) (hcodes _ hb)
  have hload : abbrev_table_load entries
      = entries.foldl abbrev_load_step ([], []) := by
    show (abbrev_table_sort (entries.foldl abbrev_load_step ([], [])).1,
        (entries.foldl abbrev_load_step ([], [])).2)
      = entries.foldl abbrev_load_step ([], [])
    rw [hsortid]
  refine ⟨?_, ?_, ?_⟩
  · rw [hload, heq]
    rfl
  · rw [hload]
    exact hsort
  · intro c
    rw [hload]
    rw [abbrev_find_eq_linear _ c hsort]
    rw [List.find?_isSome]
    constructor
    · intro h
      obtain ⟨x, hx, hxc⟩ := h
      have hxc2 : x.code = c := by simpa using hxc
      have hmemtbl : c ∈ (entries.foldl abbrev_load_step ([], [])).1.map
          (fun a => a.code) := by
        rw [← hxc2]
        exact List.mem_map_of_mem _ hx
      rcases (hmem c).mp hmemtbl with h2 | h2
      · simp at h2
      · exact h2
    · intro h
      have := (hmem c).mpr (Or.inr h)
      obtain ⟨x, hx, hxc⟩ := List.mem_map.mp this
      exact ⟨x, hx, by simpa using hxc⟩

/-- Witness for the amended claim C6 on a concrete table with a
duplicate arriving in sorted order. -/
theorem claim_C6_witness :
    ((([⟨1, 0⟩, ⟨1, 2⟩, ⟨4, 4⟩] : List abbrev_rec).map
        (fun a => a.code)).Pairwise (· ≤ ·)
      ∧ ∀ e ∈ ([⟨1, 0⟩, ⟨1, 2⟩, ⟨4, 4⟩] : List abbrev_rec),
          e.code < 2 ^ 31)
    ∧ C6_post [⟨1, 0⟩, ⟨1, 2⟩, ⟨4, 4⟩] :=
  ⟨⟨by decide, by decide⟩,
    claim_C6_amended [⟨1, 0⟩, ⟨1, 2⟩, ⟨4, 4⟩] (by decide) (by decide)⟩

/-- Claim C10: check_location_expression returns false iff the declared
expression length exceeds the bytes remaining in the enclosing cursor
(the sub-cursor cannot be opened); every defect inside the expression
itself (unreadable or unknown opcode, unreadable operand, out-of-range
branch target, branch target not matching an opcode start) only emits a
diagnostic, and the function still returns true, for every opcode
operand table and every relocation behaviour. -/
theorem claim_C10 (ops : Nat → Option (Nat × Nat)) (rm : relocate_model)
    (parent : read_ctx) (init_off : Nat) (rel : relocation_data)
    (length : Nat) (addr_64 : Bool) :
    ((check_location_expression ops rm parent init_off rel length
        addr_64).1 = false
      ↔ parent.pos + length > parent.data.length)
    ∧ (parent.pos + length ≤ parent.data.length →
        (check_location_expression ops rm parent init_off rel length
          addr_64).1 = true) := by
  unfold check_location_expression
  by_cases h : parent.pos + length > parent.data.length
  · rw [if_pos h]
    exact ⟨⟨fun _ => h, fun _ => rfl⟩, fun h2 => absurd h (by omega)⟩
  · rw [if_neg h]
    refine ⟨⟨fun hc => ?_, fun hc => absurd hc h⟩, fun _ => rfl⟩
    exact Bool.noConfusion hc

/-- Witness for claim C10: a one-byte expression whose sole opcode the
operand table does not know is diagnosed but still accepted. -/
theorem claim_C10_witness :
    (⟨[0x03], 0⟩ : read_ctx).pos + 1 ≤ (⟨[0x03], 0⟩ : read_ctx).data.length
    ∧ (check_location_expression (fun _ => none) relocate_model_id
        ⟨[0x03], 0⟩ 0 ⟨[], 0⟩ 1 false).1 = true :=
  ⟨by decide,
    (claim_C10 (fun _ => none) relocate_model_id ⟨[0x03], 0⟩ 0 ⟨[], 0⟩ 1
      false).2 (by decide)⟩

/-- Claim C4 counterexample: two DIE references targeting the same
listhead offset 0 of an eight-byte ranges section (one terminator
entry) produce no diagnostic at all and retval stays true: after
sorting, the reference loop skips a target equal to the previous one
before check_loc_or_range_ref ever runs, so no overlap error (and in
particular no points-into error) is reported, contrary to the claim
that every pair of equal targets in one section pass is diagnosed. -/
theorem claim_C4_counterexample :
    (loc_range_pass ⟨fun _ => none, relocate_model_id, false, false⟩
        [0, 0, 0, 0, 0, 0, 0, 0] 0 [0, 0] ⟨[], 0⟩ none).diags = []
    ∧ (loc_range_pass ⟨fun _ => none, relocate_model_id, false, false⟩
        [0, 0, 0, 0, 0, 0, 0, 0] 0 [0, 0] ⟨[], 0⟩ none).retval = true :=
  ⟨rfl, rfl⟩

/-- Claim C4 amended: a reference target equal to the previously
processed one is skipped silently by the reference loop of
check_loc_or_range_structural (the iteration is a no-op), so two DIEs
referencing the same listhead are never diagnosed against each other;
the points-into error of check_loc_or_range_ref fires exactly when the
requested offset lies within the section and the persistent coverage
already contains its first byte, i.e. only when a reference points into
a list processed under a strictly different target offset. -/
theorem claim_C4_amended (p : locrange_params) (data : List Nat)
    (cu_low_pc : Nat) (off : Nat) (rest : List Nat)
    (st : locrange_pass_state) (h : st.last_off = some off)
    (rel : relocation_data) (cov : coverage) (cu_cov : Option coverage)
    (addr a : Nat) :
    loc_range_pass_go p data cu_low_pc (off :: rest) st
      = loc_range_pass_go p data cu_low_pc rest st
    ∧ (LocRangeDiag.pointsInto a
        ∈ (check_loc_or_range_ref p data cu_low_pc rel cov cu_cov
            addr).2.1
      ↔ a = addr ∧ addr ≤ data.length
        ∧ coverage_is_covered cov addr 1 = true) := by
  refine ⟨?_, ?_⟩
  · simp only [loc_range_pass_go]
    rw [if_pos h]
  · by_cases hgt : addr > data.length
    · simp only [check_loc_or_range_ref]
      rw [if_pos hgt]
      simp only [List.mem_singleton]
      constructor
      · intro hmem
        exact absurd hmem (by simp)
      · rintro ⟨-, hle, -⟩
        omega
    · by_cases hcov : coverage_is_covered cov addr 1 = true
      · simp only [check_loc_or_range_ref]
        rw [if_neg hgt]
        simp [hcov]
        omega
      · simp only [check_loc_or_range_ref]
        rw [if_neg hgt]
        simp [hcov]

/-- Witness for the amended claim C4: a duplicate target 5 is dropped
unprocessed, and for a coverage already holding byte 0 the reference
check of offset 0 reports the points-into error. -/
theorem claim_C4_witness :
    loc_range_pass_go ⟨fun _ => none, relocate_model_id, false, false⟩
        [0, 0, 0, 0, 0, 0, 0, 0] 0 [5]
        ⟨⟨[], 0⟩, [], none, true, some 5, []⟩
      = loc_range_pass_go ⟨fun _ => none, relocate_model_id, false,
          false⟩ [0, 0, 0, 0, 0, 0, 0, 0] 0 []
        ⟨⟨[], 0⟩, [], none, true, some 5, []⟩
    ∧ (LocRangeDiag.pointsInto 0
        ∈ (check_loc_or_range_ref ⟨fun _ => none, relocate_model_id,
            false, false⟩ [0, 0, 0, 0, 0, 0, 0, 0] 0 ⟨[], 0⟩ [(0, 1)]
            none 0).2.1
      ↔ 0 = 0 ∧ 0 ≤ ([0, 0, 0, 0, 0, 0, 0, 0] : List Nat).length
        ∧ coverage_is_covered [(0, 1)] 0 1 = true) :=
  claim_C4_amended ⟨fun _ => none, relocate_model_id, false, false⟩
    [0, 0, 0, 0, 0, 0, 0, 0] 0 5 []
    ⟨⟨[], 0⟩, [], none, true, some 5, []⟩ rfl ⟨[], 0⟩ [(0, 1)] none 0 0

end Dwarflint
